import Mathlib

/-!
Verification development for the dyad AI-response action pipeline.

Part 1 embeds the tag extractor (src/ipc/utils/dyad_tag_parser.ts): each `getDyad...Tags`
function is a global regex scan over the response text.  The JavaScript regex loops are
embedded as character-list scanners that try to complete a match at each position and
otherwise advance one character, which is exactly the backtracking behaviour of the
source patterns (every quantifier in them is forced, so a failed attempt at one position
can only succeed again at a later start position).

Part 2 embeds the action orchestrator `processFullResponseActions`
(src/ipc/processors/response_processor.ts) as a state machine over a flat file map plus
an event log of external-collaborator invocations.  Collaborator outcomes (git, package
manager, Supabase, database rows, patch engine) are supplied by an `Env` record, since
those modules are consumed through their interfaces.

Part 3 embeds the promise settlement logic of `generateProblemReport`
(src/ipc/processors/tsc.ts): the set of worker events that can settle the returned
promise, as registered by the source handlers.
-/

/-! ## Part 1: character-level scanning primitives -/

/-- Character comparison; with `ci` set the comparison is case-insensitive, matching the
`i` regex flag used by the write and search-replace patterns. -/
def charMatch (ci : Bool) (a b : Char) : Bool :=
  if ci then a.toLower == b.toLower else a == b

/-- Tests whether `pat` matches at the start of the text (case-insensitively when `ci`). -/
def isPrefixAt (ci : Bool) : List Char → List Char → Bool
  | [], _ => true
  | _ :: _, [] => false
  | p :: ps, c :: cs => charMatch ci p c && isPrefixAt ci ps cs

/-- Splits the text at the first occurrence of `stop`, returning the segment before it and
the remainder after it; `none` when `stop` does not occur.  This is the forced behaviour
of a regex fragment of shape `([^s]*)s`. -/
def spanUntil (stop : Char) : List Char → Option (List Char × List Char)
  | [] => none
  | c :: cs =>
    if c == stop then some ([], cs)
    else (spanUntil stop cs).map (fun p => (c :: p.1, p.2))

/-- Splits the text at the first (possibly case-insensitive) occurrence of the non-empty
pattern `p0 :: ps`, returning the segment before the occurrence and the remainder after
it.  This is the forced behaviour of a lazy regex fragment `([\s\S]*?)pat`. -/
def splitAtSub (ci : Bool) (p0 : Char) (ps : List Char) : List Char → Option (List Char × List Char)
  | [] => none
  | c :: cs =>
    if isPrefixAt ci (p0 :: ps) (c :: cs) then some ([], cs.drop ps.length)
    else (splitAtSub ci p0 ps cs).map (fun p => (c :: p.1, p.2))

/-- Splits the text at the first occurrence of `stop` without consuming it; the whole text
becomes the first component when `stop` never occurs.  This is the forced behaviour of a
greedy regex fragment `[^s]*` followed by a literal. -/
def breakAtChar (stop : Char) : List Char → List Char × List Char
  | [] => ([], [])
  | c :: cs =>
    if c == stop then ([], c :: cs)
    else
      let p := breakAtChar stop cs
      (c :: p.1, p.2)

/-- Extracts the first capture of an attribute regex such as `path="([^"]+)"`: the scan
tries each position, requires the non-empty capture and its closing quote, and otherwise
moves on, exactly like the backtracking of the source pattern. -/
def parseAttr (key : List Char) : List Char → Option (List Char)
  | [] => none
  | c :: cs =>
    if isPrefixAt false key (c :: cs) then
      match spanUntil '"' ((c :: cs).drop key.length) with
      | some (v, _) => if v = [] then parseAttr key cs else some v
      | none => parseAttr key cs
    else parseAttr key cs

/-- Splits a character list on every occurrence of `sep`, JavaScript `String.split` style
(empty segments are kept). -/
def splitCh (sep : Char) : List Char → List (List Char)
  | [] => [[]]
  | c :: cs =>
    if c == sep then [] :: splitCh sep cs
    else
      match splitCh sep cs with
      | [] => [[c]]
      | g :: gs => (c :: g) :: gs

/-- Joins character-list segments with a separator character, inverse direction of
`splitCh`; used for `Array.prototype.join`. -/
def joinCh (sep : Char) : List (List Char) → List Char
  | [] => []
  | [g] => g
  | g :: gs => g ++ sep :: joinCh sep gs

/-- ASCII whitespace predicate backing the embedding of `String.prototype.trim`. -/
def isWsChar (c : Char) : Bool :=
  c == ' ' || c == '\t' || c == '\n' || c == '\r'

/-- Embedding of `String.prototype.trim` over ASCII whitespace. -/
def trimChars (l : List Char) : List Char :=
  ((l.dropWhile isWsChar).reverse.dropWhile isWsChar).reverse

/-- Drops the first line when it opens a fenced code block, as the parser does after
splitting the tag body into lines. -/
def dropFenceFirst (lines : List (List Char)) : List (List Char) :=
  match lines with
  | [] => []
  | l :: ls => if isPrefixAt false "```".data l then ls else l :: ls

/-- Drops the last line when it opens or closes a fenced code block, applied after
`dropFenceFirst` exactly as in the source. -/
def dropFenceLast (lines : List (List Char)) : List (List Char) :=
  match lines.getLast? with
  | some l => if isPrefixAt false "```".data l then lines.dropLast else lines
  | none => lines

/-- Body-text cleanup shared by the write, search-replace and execute-sql parsers: trim,
split into lines, strip a leading and a trailing code fence, rejoin. -/
def cleanContent (body : List Char) : List Char :=
  joinCh '\n' (dropFenceLast (dropFenceFirst (splitCh '\n' (trimChars body))))

/-- Modelled from the spec: the path-normalization routine `normalizePath` is not among
the analysed sources; the spec requires platform-neutral separators, so backslashes are
mapped to forward slashes. -/
def normalizePath (p : String) : String :=
  String.mk (p.data.map (fun c => if c = '\\' then '/' else c))

/-! ## Parsed action records (data model of the spec) -/

/-- Record produced for one `dyad-write` or `dyad-search-replace` tag. -/
structure PathTag where
  path : String
  content : String
  description : Option String
deriving Repr, DecidableEq

/-- Record produced for one `dyad-rename` tag. -/
structure RenameTag where
  fromPath : String
  toPath : String
deriving Repr, DecidableEq

/-- Record produced for one `dyad-execute-sql` tag. -/
structure SqlQuery where
  content : String
  description : Option String
deriving Repr, DecidableEq

/-! ## Tag matchers, one per source regex -/

/-- Match attempt at the current position for the attribute-carrying tag pattern
`<name([^>]*)>([\s\S]*?)</name>` used by the write, search-replace and execute-sql
parsers: open literal, attributes up to the first `>`, lazily delimited body.
Returns attributes, raw body, and the remainder after the close tag. -/
def matchTagHere (ci : Bool) (openPat : List Char) (close0 : Char) (closeRest : List Char)
    (t : List Char) : Option (List Char × List Char × List Char) :=
  if isPrefixAt ci openPat t then
    match spanUntil '>' (t.drop openPat.length) with
    | none => none
    | some (attrs, afterGt) =>
      match splitAtSub ci close0 closeRest afterGt with
      | none => none
      | some (body, rest) => some (attrs, body, rest)
  else none

/-- Match attempt for `<dyad-delete path="([^"]+)"[^>]*>([\s\S]*?)</dyad-delete>`:
returns the captured path and the remainder after the close tag. -/
def matchDeleteHere (t : List Char) : Option (List Char × List Char) :=
  if isPrefixAt false "<dyad-delete path=\"".data t then
    match spanUntil '"' (t.drop ("<dyad-delete path=\"".data).length) with
    | none => none
    | some (p, r1) =>
      if p = [] then none
      else
        match spanUntil '>' r1 with
        | none => none
        | some (_, r2) =>
          match splitAtSub false '<' "/dyad-delete>".data r2 with
          | none => none
          | some (_, rest) => some (p, rest)
  else none

/-- Match attempt for
`<dyad-rename from="([^"]+)" to="([^"]+)"[^>]*>([\s\S]*?)</dyad-rename>`:
returns the two captured paths and the remainder after the close tag. -/
def matchRenameHere (t : List Char) : Option (List Char × List Char × List Char) :=
  if isPrefixAt false "<dyad-rename from=\"".data t then
    match spanUntil '"' (t.drop ("<dyad-rename from=\"".data).length) with
    | none => none
    | some (f, r1) =>
      if f = [] then none
      else if isPrefixAt false " to=\"".data r1 then
        match spanUntil '"' (r1.drop (" to=\"".data).length) with
        | none => none
        | some (tv, r2) =>
          if tv = [] then none
          else
            match spanUntil '>' r2 with
            | none => none
            | some (_, r3) =>
              match splitAtSub false '<' "/dyad-rename>".data r3 with
              | none => none
              | some (_, rest) => some (f, tv, rest)
      else none
  else none

/-- Match attempt for
`<dyad-add-dependency packages="([^"]+)">[^<]*</dyad-add-dependency>`:
returns the captured packages attribute and the remainder after the close tag. -/
def matchAddDepHere (t : List Char) : Option (List Char × List Char) :=
  if isPrefixAt false "<dyad-add-dependency packages=\"".data t then
    match spanUntil '"' (t.drop ("<dyad-add-dependency packages=\"".data).length) with
    | none => none
    | some (v, r1) =>
      if v = [] then none
      else
        match r1 with
        | [] => none
        | c1 :: r2 =>
          if c1 = '>' then
            let p := breakAtChar '<' r2
            if isPrefixAt false "</dyad-add-dependency>".data p.2 then
              some (v, p.2.drop ("</dyad-add-dependency>".data).length)
            else none
          else none
  else none

/-! ## Termination facts for the scanners -/

theorem spanUntil_length_lt (stop : Char) :
    ∀ t pre post, spanUntil stop t = some (pre, post) → post.length < t.length := by
  intro t
  induction t with
  | nil => intro pre post h; simp [spanUntil] at h
  | cons c cs ih =>
    intro pre post h
    simp only [spanUntil] at h
    by_cases hc : (c == stop) = true
    · simp [hc] at h
      simp [← h.2]
    · simp only [hc, if_false, Bool.false_eq_true] at h
      cases hs : spanUntil stop cs with
      | none => rw [hs] at h; simp at h
      | some pq =>
        rw [hs] at h
        simp at h
        have := ih pq.1 pq.2 (by rw [hs])
        simp [← h.2]
        omega

theorem splitAtSub_length_lt (ci : Bool) (p0 : Char) (ps : List Char) :
    ∀ t pre post, splitAtSub ci p0 ps t = some (pre, post) → post.length < t.length := by
  intro t
  induction t with
  | nil => intro pre post h; simp [splitAtSub] at h
  | cons c cs ih =>
    intro pre post h
    simp only [splitAtSub] at h
    by_cases hc : (isPrefixAt ci (p0 :: ps) (c :: cs)) = true
    · simp [hc] at h
      rw [← h.2]
      simp [List.length_drop]
      omega
    · simp only [hc, if_false, Bool.false_eq_true] at h
      cases hs : splitAtSub ci p0 ps cs with
      | none => rw [hs] at h; simp at h
      | some pq =>
        rw [hs] at h
        simp at h
        have := ih pq.1 pq.2 (by rw [hs])
        rw [← h.2]
        simp
        omega

theorem breakAtChar_length_le (stop : Char) :
    ∀ t, (breakAtChar stop t).2.length ≤ t.length := by
  intro t
  induction t with
  | nil => simp [breakAtChar]
  | cons c cs ih =>
    simp only [breakAtChar]
    by_cases hc : (c == stop) = true
    · simp [hc]
    · simp only [hc, if_false, Bool.false_eq_true]
      simp
      omega

theorem matchTagHere_length_lt (ci : Bool) (openPat : List Char) (c0 : Char) (cr : List Char)
    (t a b r : List Char) (h : matchTagHere ci openPat c0 cr t = some (a, b, r)) :
    r.length < t.length := by
  simp only [matchTagHere] at h
  by_cases hp : (isPrefixAt ci openPat t) = true
  · simp only [hp, if_true] at h
    cases hs : spanUntil '>' (t.drop openPat.length) with
    | none => rw [hs] at h; simp at h
    | some pq =>
      obtain ⟨attrs, afterGt⟩ := pq
      rw [hs] at h
      cases hq : splitAtSub ci c0 cr afterGt with
      | none => simp only [hq] at h; exact absurd h (by simp)
      | some bd =>
        obtain ⟨body, rest⟩ := bd
        simp only [hq] at h
        simp at h
        have h1 := spanUntil_length_lt '>' _ _ _ hs
        have h2 := splitAtSub_length_lt ci c0 cr _ _ _ hq
        have h3 : (t.drop openPat.length).length ≤ t.length := by
          simp [List.length_drop]
        rw [← h.2.2]
        omega
  · simp [hp] at h

theorem matchDeleteHere_length_lt (t p r : List Char) (h : matchDeleteHere t = some (p, r)) :
    r.length < t.length := by
  simp only [matchDeleteHere] at h
  by_cases hp : (isPrefixAt false "<dyad-delete path=\"".data t) = true
  · simp only [hp, if_true] at h
    cases hs : spanUntil '"' (t.drop ("<dyad-delete path=\"".data).length) with
    | none => rw [hs] at h; simp at h
    | some pq =>
      obtain ⟨pv, r1⟩ := pq
      rw [hs] at h
      by_cases hz : pv = []
      · simp [hz] at h
      · simp only [hz, if_false] at h
        cases hg : spanUntil '>' r1 with
        | none => simp only [hg] at h; exact absurd h (by simp)
        | some pq2 =>
          obtain ⟨junk, r2⟩ := pq2
          simp only [hg] at h
          cases hc : splitAtSub false '<' "/dyad-delete>".data r2 with
          | none => simp only [hc] at h; exact absurd h (by simp)
          | some bd =>
            obtain ⟨body, rest⟩ := bd
            simp only [hc] at h
            simp at h
            have h1 := spanUntil_length_lt '"' _ _ _ hs
            have h2 := spanUntil_length_lt '>' _ _ _ hg
            have h3 := splitAtSub_length_lt false '<' "/dyad-delete>".data _ _ _ hc
            have h4 : (t.drop ("<dyad-delete path=\"".data).length).length ≤ t.length := by
              simp [List.length_drop]
            rw [← h.2]
            omega
  · simp [hp] at h

theorem matchRenameHere_length_lt (t f tv r : List Char)
    (h : matchRenameHere t = some (f, tv, r)) : r.length < t.length := by
  simp only [matchRenameHere] at h
  by_cases hp : (isPrefixAt false "<dyad-rename from=\"".data t) = true
  · simp only [hp, if_true] at h
    cases hs : spanUntil '"' (t.drop ("<dyad-rename from=\"".data).length) with
    | none => rw [hs] at h; simp at h
    | some pq =>
      obtain ⟨fv, r1⟩ := pq
      rw [hs] at h
      by_cases hz : fv = []
      · simp [hz] at h
      · simp only [hz, if_false] at h
        by_cases hto : (isPrefixAt false " to=\"".data r1) = true
        · simp only [hto, if_true] at h
          cases ht2 : spanUntil '"' (r1.drop (" to=\"".data).length) with
          | none => simp only [ht2] at h; exact absurd h (by simp)
          | some pq2 =>
            obtain ⟨tvv, r2⟩ := pq2
            simp only [ht2] at h
            by_cases hz2 : tvv = []
            · simp [hz2] at h
            · simp only [hz2, if_false] at h
              cases hg : spanUntil '>' r2 with
              | none => simp only [hg] at h; exact absurd h (by simp)
              | some pq3 =>
                obtain ⟨junk, r3⟩ := pq3
                simp only [hg] at h
                cases hc : splitAtSub false '<' "/dyad-rename>".data r3 with
                | none => simp only [hc] at h; exact absurd h (by simp)
                | some bd =>
                  obtain ⟨body, rest⟩ := bd
                  simp only [hc] at h
                  simp at h
                  have h1 := spanUntil_length_lt '"' _ _ _ hs
                  have h2 := spanUntil_length_lt '"' _ _ _ ht2
                  have h3 := spanUntil_length_lt '>' _ _ _ hg
                  have h4 := splitAtSub_length_lt false '<' "/dyad-rename>".data _ _ _ hc
                  have h5 : (t.drop ("<dyad-rename from=\"".data).length).length ≤ t.length := by
                    simp [List.length_drop]
                  have h6 : (r1.drop (" to=\"".data).length).length ≤ r1.length := by
                    simp [List.length_drop]
                  rw [← h.2.2]
                  omega
        · simp [hto] at h
  · simp [hp] at h

theorem matchAddDepHere_length_lt (t v r : List Char) (h : matchAddDepHere t = some (v, r)) :
    r.length < t.length := by
  simp only [matchAddDepHere] at h
  by_cases hp : (isPrefixAt false "<dyad-add-dependency packages=\"".data t) = true
  · simp only [hp, if_true] at h
    cases hs : spanUntil '"' (t.drop ("<dyad-add-dependency packages=\"".data).length) with
    | none => rw [hs] at h; simp at h
    | some pq =>
      obtain ⟨vv, r1⟩ := pq
      rw [hs] at h
      by_cases hz : vv = []
      · simp [hz] at h
      · simp only [hz, if_false] at h
        cases r1 with
        | nil => simp at h
        | cons c1 r2 =>
          simp only at h
          by_cases hgt : c1 = '>'
          · simp only [hgt, if_true, if_pos] at h
            by_cases hcl :
                (isPrefixAt false "</dyad-add-dependency>".data (breakAtChar '<' r2).2) = true
            · simp only [hcl, if_true] at h
              simp only [Option.some.injEq, Prod.mk.injEq] at h
              have h1 := spanUntil_length_lt '"' _ _ _ hs
              have h2 := breakAtChar_length_le '<' r2
              have e1 : ("<dyad-add-dependency packages=\"".data).length = 31 := rfl
              have e2 : ("</dyad-add-dependency>".data).length = 22 := rfl
              rw [← h.2]
              simp only [e1, e2, List.length_drop, List.length_cons] at h1 h2 ⊢
              omega
            · simp [hcl] at h
          · simp [hgt] at h
  · simp [hp] at h

/-! ## The six extractors -/

/-- Scanner behind `getDyadWriteTags` and `getDyadSearchReplaceTags`: for each match,
a tag with a valid `path` attribute is emitted (path normalized, body cleaned), and a
tag without one contributes a warning instead (the source logs it via `logger.warn`). -/
def scanPathTags (ci : Bool) (openPat : List Char) (c0 : Char) (cr : List Char) :
    List Char → List PathTag × List String
  | [] => ([], [])
  | c :: cs =>
    match h : matchTagHere ci openPat c0 cr (c :: cs) with
    | some (attrs, body, rest) =>
      let r := scanPathTags ci openPat c0 cr rest
      match parseAttr "path=\"".data attrs with
      | some p =>
        ({ path := normalizePath (String.mk p)
           content := String.mk (cleanContent body)
           description := (parseAttr "description=\"".data attrs).map String.mk } :: r.1, r.2)
      | none => (r.1, String.mk attrs :: r.2)
    | none => scanPathTags ci openPat c0 cr cs
termination_by t => t.length
decreasing_by
  · exact matchTagHere_length_lt ci openPat c0 cr _ _ _ _ h
  · simp

/-- Scanner behind `getDyadDeleteTags`. -/
def scanDeleteTags : List Char → List String
  | [] => []
  | c :: cs =>
    match h : matchDeleteHere (c :: cs) with
    | some (p, rest) => normalizePath (String.mk p) :: scanDeleteTags rest
    | none => scanDeleteTags cs
termination_by t => t.length
decreasing_by
  · exact matchDeleteHere_length_lt _ _ _ h
  · simp

/-- Scanner behind `getDyadRenameTags`. -/
def scanRenameTags : List Char → List RenameTag
  | [] => []
  | c :: cs =>
    match h : matchRenameHere (c :: cs) with
    | some (f, tv, rest) =>
      { fromPath := normalizePath (String.mk f), toPath := normalizePath (String.mk tv) } ::
        scanRenameTags rest
    | none => scanRenameTags cs
termination_by t => t.length
decreasing_by
  · exact matchRenameHere_length_lt _ _ _ _ h
  · simp

/-- Scanner behind `getDyadAddDependencyTags`: each captured attribute is split on the
space character (JavaScript `split(" ")`) and the pieces of all tags are concatenated. -/
def scanAddDepTags : List Char → List String
  | [] => []
  | c :: cs =>
    match h : matchAddDepHere (c :: cs) with
    | some (v, rest) => (splitCh ' ' v).map String.mk ++ scanAddDepTags rest
    | none => scanAddDepTags cs
termination_by t => t.length
decreasing_by
  · exact matchAddDepHere_length_lt _ _ _ h
  · simp

/-- Scanner behind `getDyadExecuteSqlTags`. -/
def scanSqlTags : List Char → List SqlQuery
  | [] => []
  | c :: cs =>
    match h : matchTagHere false "<dyad-execute-sql".data '<' "/dyad-execute-sql>".data (c :: cs) with
    | some (attrs, body, rest) =>
      { content := String.mk (cleanContent body)
        description := (parseAttr "description=\"".data attrs).map String.mk } :: scanSqlTags rest
    | none => scanSqlTags cs
termination_by t => t.length
decreasing_by
  · exact matchTagHere_length_lt _ _ _ _ _ _ _ _ h
  · simp

/-- Embedding of `getDyadWriteTags`; the second component lists the warnings the source
logs for tags without a valid `path` attribute (one entry per dropped tag, carrying its
attribute text). -/
def getDyadWriteTags (fullResponse : String) : List PathTag × List String :=
  scanPathTags true "<dyad-write".data '<' "/dyad-write>".data fullResponse.data

/-- Embedding of `getDyadSearchReplaceTags`; warnings as in `getDyadWriteTags`. -/
def getDyadSearchReplaceTags (fullResponse : String) : List PathTag × List String :=
  scanPathTags true "<dyad-search-replace".data '<' "/dyad-search-replace>".data fullResponse.data

/-- Embedding of `getDyadRenameTags`. -/
def getDyadRenameTags (fullResponse : String) : List RenameTag :=
  scanRenameTags fullResponse.data

/-- Embedding of `getDyadDeleteTags`. -/
def getDyadDeleteTags (fullResponse : String) : List String :=
  scanDeleteTags fullResponse.data

/-- Embedding of `getDyadAddDependencyTags`. -/
def getDyadAddDependencyTags (fullResponse : String) : List String :=
  scanAddDepTags fullResponse.data

/-- Embedding of `getDyadExecuteSqlTags`. -/
def getDyadExecuteSqlTags (fullResponse : String) : List SqlQuery :=
  scanSqlTags fullResponse.data

/-! ## Part 2: the action orchestrator

`processFullResponseActions` is embedded as a sequential state machine.  The state `St`
holds the modelled project file tree (a flat map from full path to entry), the
written/renamed/deleted accumulators, the warning and error collectors, and a log of
collaborator invocations (`Event`).  Collaborator outcomes are read from an `Env` record;
an event is recorded at each invocation regardless of its outcome.  Source failures that
are only logged (never pushed to the collectors and never influencing control flow) are
embedded without a branch on the outcome. -/

/-- Modelled from the spec: `safeJoin` (src/ipc/utils/path_utils.ts is not among the
analysed sources) joins the app root and an already-normalized relative path. -/
def safeJoin (base p : String) : String :=
  base ++ "/" ++ p

/-- Modelled from the spec: `isServerFunction` (supabase_utils is not among the analysed
sources) recognises a deployable unit by its path below the Supabase functions
directory. -/
def isServerFunction (p : String) : Bool :=
  isPrefixAt false "supabase/functions/".data p.data

/-- Path segments split on the separator, backing the node `path` helpers. -/
def pathSegments (p : String) : List (List Char) :=
  splitCh '/' p.data

/-- Embedding of node `path.basename` for the separator-normalized paths used here. -/
def pathBasename (p : String) : String :=
  String.mk ((pathSegments p).getLast?.getD [])

/-- Embedding of node `path.dirname` for the separator-normalized paths used here. -/
def pathDirname (p : String) : String :=
  String.mk (joinCh '/' (pathSegments p).dropLast)

/-- Embedding of node `path.extname`: the suffix of the basename from its last dot, with
a leading dot not counting as an extension. -/
def pathExtname (p : String) : String :=
  let b := (pathSegments p).getLast?.getD []
  match splitCh '.' b with
  | [] => ""
  | [_] => ""
  | [x, y] => if x = [] then "" else String.mk ('.' :: y)
  | segs => String.mk ('.' :: (segs.getLast?.getD []))

/-- Embedding of `getFunctionNameFromPath`: basename of the path itself for a directory
path, basename of its parent directory for a file path. -/
def getFunctionNameFromPath (input : String) : String :=
  pathBasename (if pathExtname input ≠ "" then pathDirname input else input)

/-- Entry of the modelled file tree. -/
inductive FsEntry where
  | file (content : String)
  | dir
deriving Repr, DecidableEq

/-- Modelled project file tree: a flat association list from full path to entry. -/
abbrev Fs := List (String × FsEntry)

/-- Lookup of a path in the modelled tree, first match wins. -/
def fsLookup (fs : Fs) (p : String) : Option FsEntry :=
  (fs.find? (fun e => e.1 == p)).map (fun e => e.2)

/-- Embedding of `fs.existsSync`. -/
def fsExists (fs : Fs) (p : String) : Bool :=
  (fsLookup fs p).isSome

/-- Removal of a single entry, embedding `fs.unlinkSync`. -/
def fsDeleteFile (fs : Fs) (p : String) : Fs :=
  fs.filter (fun e => !(e.1 == p))

/-- Recursive directory removal, embedding `fs.rmdirSync` with the recursive flag: the
entry itself and every entry below it disappear. -/
def fsDeleteDirRec (fs : Fs) (p : String) : Fs :=
  fs.filter (fun e => !(e.1 == p) && !(e.1.startsWith (p ++ "/")))

/-- Insertion or overwrite of a file entry, embedding `fs.writeFileSync`. -/
def fsSetFile (fs : Fs) (p : String) (content : String) : Fs :=
  fs.filter (fun e => !(e.1 == p)) ++ [(p, FsEntry.file content)]

/-- Embedding of `fs.renameSync` when the source exists: the entry moves to the target
path, silently replacing a pre-existing target entry. -/
def fsRename (fs : Fs) (src dst : String) : Fs :=
  match fsLookup fs src with
  | some entry => fs.filter (fun e => !(e.1 == src) && !(e.1 == dst)) ++ [(dst, entry)]
  | none => fs

/-- Embedding of `readFileFromFunctionPath`: a directory path reads its `index.ts`, a
file path reads the file itself; `none` stands for a thrown read error. -/
def readFunctionContent (fs : Fs) (fullPath : String) : Option String :=
  let target := if pathExtname fullPath == "" then fullPath ++ "/index.ts" else fullPath
  match fsLookup fs target with
  | some (FsEntry.file c) => some c
  | _ => none

/-- Warning or error entry collected during processing (the `Output` interface of the
source, with the original error rendered as a string). -/
structure Output where
  message : String
  error : String
deriving Repr, DecidableEq

/-- Collaborator invocations performed by the orchestrator, in order.  The
message-content rewrite that `executeAddDependency` performs on success is represented
by `depsMessageUpdated`; its string payload is not modelled. -/
inductive Event where
  | execSql (query : String)
  | migrationWritten (path : String)
  | installDeps (packages : List String)
  | depsMessageUpdated
  | supaDeleteFn (name : String)
  | supaDeployFn (name : String)
  | gitAdd (path : String)
  | gitRemove (path : String)
  | gitAddAll
  | gitCommit (message : String) (amend : Bool)
  | gitListUncommitted
  | dbSetCommitHash (hash : String)
  | dbSetApproved
  | dbSetContent (content : String)
deriving Repr, DecidableEq

/-- Orchestrator state threaded through the steps. -/
structure St where
  fs : Fs
  writtenFiles : List String
  renamedFiles : List String
  deletedFiles : List String
  warnings : List Output
  errors : List Output
  events : List Event
deriving Repr, DecidableEq

/-- Initial state for one invocation. -/
def initSt (fs : Fs) : St :=
  { fs := fs, writtenFiles := [], renamedFiles := [], deletedFiles := [],
    warnings := [], errors := [], events := [] }

/-- Records one collaborator invocation. -/
def emit (e : Event) (st : St) : St :=
  { st with events := st.events ++ [e] }

/-- Appends a warning entry (`warnings.push` in the source). -/
def pushWarning (message error : String) (st : St) : St :=
  { st with warnings := st.warnings ++ [{ message := message, error := error }] }

/-- Appends an error entry (`errors.push` in the source). -/
def pushError (message error : String) (st : St) : St :=
  { st with errors := st.errors ++ [{ message := message, error := error }] }

/-- Outcomes of the collaborators consumed through their interfaces, fixed per
invocation.  `Except.error` stands for a thrown or rejected call. -/
structure Env where
  appFound : Bool
  neonConfigured : Bool
  neonSnapshot : Except String Unit
  messageFound : Bool
  supabaseConfigured : Bool
  enableWriteSqlMigration : Bool
  sqlExec : String → Except String Unit
  writeMigration : String → Option String → Except String String
  install : List String → Except String Unit
  supaDelete : String → Except String Unit
  supaDeploy : String → String → Except String Unit
  uploads : String → Option String
  readUpload : String → Except String String
  applySR : String → String → Option String
  gitAdd : String → Except String Unit
  gitCommitPrimary : Except String String
  uncommitted : List String
  gitAmend : Except String String

/-- Joins strings with a separator (`Array.prototype.join`). -/
def joinSep (sep : String) : List String → String
  | [] => ""
  | [s] => s
  | s :: ss => s ++ sep ++ joinSep sep ss

/-- One SQL action: execute the statement (failure collected, loop continues), then
optionally persist a migration file, whose own failure is collected separately.  The
migration write is modelled from the spec (persist the executed statement as a local
migration file), since `writeMigrationFile` is not among the analysed sources. -/
def sqlStep (env : Env) (appPath : String) (st : St) (q : SqlQuery) : St :=
  let st := emit (Event.execSql q.content) st
  match env.sqlExec q.content with
  | Except.error e => pushError ("Failed to execute SQL query: " ++ q.content) e st
  | Except.ok _ =>
    if env.enableWriteSqlMigration then
      match env.writeMigration q.content q.description with
      | Except.ok migrationFilePath =>
        let st := emit (Event.migrationWritten migrationFilePath) st
        { st with fs := fsSetFile st.fs (safeJoin appPath migrationFilePath) q.content,
                  writtenFiles := st.writtenFiles ++ [migrationFilePath] }
      | Except.error e =>
        pushError ("Failed to write SQL migration file for: " ++ q.description.getD "undefined")
          e st
    else st

/-- Dependency phase: when the concatenated package list is non-empty, invoke the
package-manager action once with the full list, collect an install failure, then record
the manifest and whichever lock files exist as written. -/
def depsPhase (env : Env) (appPath : String) (packages : List String) (st : St) : St :=
  if packages.isEmpty then st
  else
    let st := emit (Event.installDeps packages) st
    let st :=
      match env.install packages with
      | Except.ok _ => emit Event.depsMessageUpdated st
      | Except.error e => pushError ("Failed to add dependencies: " ++ joinSep ", " packages) e st
    let st := { st with writtenFiles := st.writtenFiles ++ ["package.json"] }
    let st :=
      if fsExists st.fs (safeJoin appPath "pnpm-lock.yaml") then
        { st with writtenFiles := st.writtenFiles ++ ["pnpm-lock.yaml"] }
      else st
    if fsExists st.fs (safeJoin appPath "package-lock.json") then
      { st with writtenFiles := st.writtenFiles ++ ["package-lock.json"] }
    else st

/-- One delete action: remove the path when present (recursively for a directory) and
git-remove it (that failure is only logged); a missing path is only logged.  A deployable
unit additionally gets a remote teardown whose failure is collected. -/
def deleteStep (env : Env) (appPath : String) (st : St) (filePath : String) : St :=
  let fullFilePath := safeJoin appPath filePath
  let st :=
    match fsLookup st.fs fullFilePath with
    | some entry =>
      let fs2 :=
        match entry with
        | FsEntry.dir => fsDeleteDirRec st.fs fullFilePath
        | FsEntry.file _ => fsDeleteFile st.fs fullFilePath
      let st := { st with fs := fs2, deletedFiles := st.deletedFiles ++ [filePath] }
      emit (Event.gitRemove filePath) st
    | none => st
  if isServerFunction filePath then
    let name := getFunctionNameFromPath filePath
    let st := emit (Event.supaDeleteFn name) st
    match env.supaDelete name with
    | Except.ok _ => st
    | Except.error e => pushError ("Failed to delete Supabase function: " ++ filePath) e st
  else st

/-- Remote teardown of the old name of a renamed deployable unit; a failure is collected
as a warning. -/
def renameRemoteTeardown (env : Env) (tag : RenameTag) (st : St) : St :=
  if isServerFunction tag.fromPath then
    let name := getFunctionNameFromPath tag.fromPath
    let st := emit (Event.supaDeleteFn name) st
    match env.supaDelete name with
    | Except.ok _ => st
    | Except.error e =>
      pushWarning ("Failed to delete Supabase function: " ++ tag.fromPath ++
        " as part of renaming " ++ tag.fromPath ++ " to " ++ tag.toPath) e st
  else st

/-- Remote redeploy of the new name of a renamed deployable unit from the file now at the
target path; a read or deploy failure is collected as an error. -/
def renameRemoteDeploy (env : Env) (appPath : String) (tag : RenameTag) (st : St) : St :=
  if isServerFunction tag.toPath then
    let name := getFunctionNameFromPath tag.toPath
    match readFunctionContent st.fs (safeJoin appPath tag.toPath) with
    | none =>
      pushError ("Failed to deploy Supabase function: " ++ tag.toPath ++
        " as part of renaming " ++ tag.fromPath ++ " to " ++ tag.toPath)
        "read failed" st
    | some content =>
      let st := emit (Event.supaDeployFn name) st
      match env.supaDeploy name content with
      | Except.ok _ => st
      | Except.error e =>
        pushError ("Failed to deploy Supabase function: " ++ tag.toPath ++
          " as part of renaming " ++ tag.fromPath ++ " to " ++ tag.toPath) e st
  else st

/-- One rename action: move the entry when the source exists, then git-add the new path
(unwrapped in the source, so a failure aborts to the top-level catch) and git-remove the
old one (failure only logged); a missing source is only logged.  Both deployable-unit
blocks then run, with or without a performed move, exactly as in the source. -/
def renameStep (env : Env) (appPath : String) (st : St) (tag : RenameTag) :
    Except (String × St) St :=
  let fromPath := safeJoin appPath tag.fromPath
  let toPath := safeJoin appPath tag.toPath
  let step1 : Except (String × St) St :=
    match fsLookup st.fs fromPath with
    | some _ =>
      let st := { st with fs := fsRename st.fs fromPath toPath,
                          renamedFiles := st.renamedFiles ++ [tag.toPath] }
      let st := emit (Event.gitAdd tag.toPath) st
      match env.gitAdd tag.toPath with
      | Except.error e => Except.error (e, st)
      | Except.ok _ => Except.ok (emit (Event.gitRemove tag.fromPath) st)
    | none => Except.ok st
  match step1 with
  | Except.error e => Except.error e
  | Except.ok st =>
    Except.ok (renameRemoteDeploy env appPath tag (renameRemoteTeardown env tag st))

/-- Rename loop; the first aborting failure stops the remaining renames. -/
def renameFold (env : Env) (appPath : String) : List RenameTag → St → Except (String × St) St
  | [], st => Except.ok st
  | t :: ts, st =>
    match renameStep env appPath st t with
    | Except.error e => Except.error e
    | Except.ok st2 => renameFold env appPath ts st2

/-- One search-replace action: a missing target or a failed patch application is only
logged and the loop continues (nothing is pushed to the collectors and the file is left
unchanged); on success the new content is persisted and a deployable unit is redeployed
(deploy failure collected).  A read error on a directory entry is collected by the
surrounding catch. -/
def srStep (env : Env) (appPath : String) (st : St) (tag : PathTag) : St :=
  let fullFilePath := safeJoin appPath tag.path
  match fsLookup st.fs fullFilePath with
  | none => st
  | some FsEntry.dir =>
    pushError ("Error applying search-replace to " ++ tag.path) "read failed" st
  | some (FsEntry.file original) =>
    match env.applySR original tag.content with
    | none => st
    | some newContent =>
      let st := { st with fs := fsSetFile st.fs fullFilePath newContent,
                          writtenFiles := st.writtenFiles ++ [tag.path] }
      if isServerFunction tag.path then
        let name := pathBasename (pathDirname tag.path)
        let st := emit (Event.supaDeployFn name) st
        match env.supaDeploy name newContent with
        | Except.ok _ => st
        | Except.error e =>
          pushError ("Failed to deploy Supabase function after search-replace: " ++ tag.path) e st
      else st

/-- One write action: a body that matches a pending upload id (after trimming) is
replaced by the uploaded binary content (a failed read is collected and the original
body is written instead); the file is then written and a deployable unit written with
string content is redeployed (deploy failure collected). -/
def writeStep (env : Env) (appPath : String) (st : St) (tag : PathTag) : St :=
  let fullFilePath := safeJoin appPath tag.path
  let trimmedContent := tag.content.trim
  let step1 : String × Bool × St :=
    match env.uploads trimmedContent with
    | some uploadPath =>
      match env.readUpload uploadPath with
      | Except.ok fileContent => (fileContent, false, st)
      | Except.error e =>
        (tag.content, true, pushError ("Failed to read uploaded file: " ++ uploadPath) e st)
    | none => (tag.content, true, st)
  let content := step1.1
  let contentIsString := step1.2.1
  let st := step1.2.2
  let st := { st with fs := fsSetFile st.fs fullFilePath content,
                      writtenFiles := st.writtenFiles ++ [tag.path] }
  if isServerFunction tag.path && contentIsString then
    let name := pathBasename (pathDirname tag.path)
    let st := emit (Event.supaDeployFn name) st
    match env.supaDeploy name content with
    | Except.ok _ => st
    | Except.error e => pushError ("Failed to deploy Supabase function: " ++ tag.path) e st
  else st

/-- Git staging loop over the written files; staging is unwrapped in the source, so the
first failure aborts to the top-level catch. -/
def gitAddFold (env : Env) : List String → St → Except (String × St) St
  | [], st => Except.ok st
  | f :: files, st =>
    let st := emit (Event.gitAdd f) st
    match env.gitAdd f with
    | Except.error e => Except.error (e, st)
    | Except.ok _ => gitAddFold env files st

/-- Commit message fragments summarizing the per-kind counts, in source order. -/
def buildChanges (nw nr nd : Nat) (deps : List String) (nsql : Nat) : List String :=
  (if nw > 0 then ["wrote " ++ toString nw ++ " file(s)"] else []) ++
  (if nr > 0 then ["renamed " ++ toString nr ++ " file(s)"] else []) ++
  (if nd > 0 then ["deleted " ++ toString nd ++ " file(s)"] else []) ++
  (if deps.length > 0 then ["added " ++ joinSep ", " deps ++ " package(s)"] else []) ++
  (if nsql > 0 then ["executed " ++ toString nsql ++ " SQL queries"] else [])

/-- Commit phase: when anything was written, renamed, deleted, or the dependency list is
non-empty, stage the written files, commit with a summary message, check for files left
uncommitted, fold them in with an amend commit when present (an amend failure becomes
advisory data while the primary hash is kept), and persist the resulting commit hash to
the message row.  Otherwise nothing at all happens here.  Returns the updated state, the
`hasChanges` flag, and the extra-files advisory data. -/
def commitPhase (env : Env) (chatSummary : Option String) (deps : List String) (nsql : Nat)
    (st : St) : Except (String × St) (St × Bool × Option (List String) × Option String) :=
  let hasChanges := st.writtenFiles.length > 0 || st.renamedFiles.length > 0 ||
    st.deletedFiles.length > 0 || deps.length > 0
  if hasChanges then
    match gitAddFold env st.writtenFiles st with
    | Except.error e => Except.error e
    | Except.ok st =>
      let changes := buildChanges st.writtenFiles.length st.renamedFiles.length
        st.deletedFiles.length deps nsql
      let message :=
        match chatSummary with
        | some cs => "[dyad] " ++ cs ++ " - " ++ joinSep ", " changes
        | none => "[dyad] " ++ joinSep ", " changes
      let st := emit (Event.gitCommit message false) st
      match env.gitCommitPrimary with
      | Except.error e => Except.error (e, st)
      | Except.ok commitHash =>
        let st := emit Event.gitListUncommitted st
        let uncommittedFiles := env.uncommitted
        if uncommittedFiles.length > 0 then
          let st := emit Event.gitAddAll st
          let st := emit (Event.gitCommit (message ++ " + extra files edited outside of Dyad") true) st
          match env.gitAmend with
          | Except.ok amendedHash =>
            let st := emit (Event.dbSetCommitHash amendedHash) st
            Except.ok (st, true, some uncommittedFiles, none)
          | Except.error e =>
            let st := emit (Event.dbSetCommitHash commitHash) st
            Except.ok (st, true, some uncommittedFiles, some e)
        else
          let st := emit (Event.dbSetCommitHash commitHash) st
          Except.ok (st, true, none, none)
  else Except.ok (st, false, none, none)

/-- Result of one invocation: the early empty result for a missing chat-app or message
row, the regular result record, the caught-error result, or an exception escaping the
function (possible only before the try block is entered). -/
inductive Outcome where
  | empty
  | ok (updatedFiles : Bool) (extraFiles : Option (List String)) (extraFilesError : Option String)
  | errorResult (message : String)
  | thrown (message : String)
deriving Repr, DecidableEq

/-- Builds the out-of-band annotation block appended to the stored message content: the
template yields leading, separating and trailing whitespace around the serialized
warning and error entries, so it is non-empty even with empty collectors. -/
def appendedContent (warnings errors : List Output) : String :=
  "\n    " ++
  joinSep "\n" (warnings.map (fun w =>
    "<dyad-output type=\"warning\" message=\"" ++ w.message ++ "\">" ++ w.error ++
      "</dyad-output>")) ++
  "\n    " ++
  joinSep "\n" (errors.map (fun e =>
    "<dyad-output type=\"error\" message=\"" ++ e.message ++ "\">" ++ e.error ++
      "</dyad-output>")) ++
  "\n    "

/-- Guaranteed-cleanup step attached to the try block: when the annotation block is
non-empty, the stored message content is overwritten with the full response plus the
block. -/
def finallyFlush (fullResponse : String) (r : Outcome × St) : Outcome × St :=
  let appended := appendedContent r.2.warnings r.2.errors
  if appended.length > 0 then
    (r.1, emit (Event.dbSetContent (fullResponse ++ "\n\n" ++ appended)) r.2)
  else r

/-- Body of the try block: parse the tags, bail out on a missing message row, then run
SQL, dependency install, deletes, renames, search-replaces and writes in the fixed
order, and finish with the commit phase and the approval mark.  A failure escaping a
step surfaces as the caught single error result. -/
def tryBody (env : Env) (appPath fullResponse : String) (chatSummary : Option String)
    (st : St) : Outcome × St :=
  let dyadWriteTags := (getDyadWriteTags fullResponse).1
  let dyadRenameTags := getDyadRenameTags fullResponse
  let dyadDeletePaths := getDyadDeleteTags fullResponse
  let dyadAddDependencyPackages := getDyadAddDependencyTags fullResponse
  let dyadExecuteSqlQueries :=
    if env.supabaseConfigured then getDyadExecuteSqlTags fullResponse else []
  if !env.messageFound then (Outcome.empty, st)
  else
    let st := dyadExecuteSqlQueries.foldl (sqlStep env appPath) st
    let st := depsPhase env appPath dyadAddDependencyPackages st
    let st := dyadDeletePaths.foldl (deleteStep env appPath) st
    match renameFold env appPath dyadRenameTags st with
    | Except.error (e, st) => (Outcome.errorResult e, st)
    | Except.ok st =>
      let st := ((getDyadSearchReplaceTags fullResponse).1).foldl (srStep env appPath) st
      let st := dyadWriteTags.foldl (writeStep env appPath) st
      match commitPhase env chatSummary dyadAddDependencyPackages
          dyadExecuteSqlQueries.length st with
      | Except.error (e, st) => (Outcome.errorResult e, st)
      | Except.ok (st, hasChanges, extraFiles, extraFilesError) =>
        let st := emit Event.dbSetApproved st
        (Outcome.ok hasChanges extraFiles extraFilesError, st)

/-- Embedding of `processFullResponseActions`.  A missing chat-app row returns the empty
result before anything else.  A configured external-database branch is snapshotted
before the try block: a snapshot failure is rethrown there, so it escapes the function
without entering the try/finally.  Every run that enters the try block passes through
the guaranteed-cleanup flush. -/
def processFullResponseActions (env : Env) (appPath fullResponse : String)
    (chatSummary : Option String) (fs0 : Fs) : Outcome × St :=
  if !env.appFound then (Outcome.empty, initSt fs0)
  else if env.neonConfigured then
    match env.neonSnapshot with
    | Except.error e =>
      (Outcome.thrown
        ("Could not create Neon branch; database versioning functionality is not working: " ++ e),
        initSt fs0)
    | Except.ok _ =>
      finallyFlush fullResponse (tryBody env appPath fullResponse chatSummary (initSt fs0))
  else finallyFlush fullResponse (tryBody env appPath fullResponse chatSummary (initSt fs0))

/-! ## Part 3: the compile-check caller (src/ipc/processors/tsc.ts)

`generateProblemReport` wraps a worker in a promise.  The handlers it registers are the
only settlement sources; the embedding maps a trace of worker events to the first
settlement they produce, if any. -/

/-- Abstract diagnostics payload returned by the type-check worker. -/
abbrev ProblemReport := List String

/-- Message posted by the worker, mirroring `WorkerOutput`. -/
structure WorkerOutput where
  success : Bool
  data : Option ProblemReport
  error : Option String
deriving Repr, DecidableEq

/-- Events a worker can produce towards the caller. -/
inductive WorkerEvent where
  | message (output : WorkerOutput)
  | errored (e : String)
  | exited (code : Nat)
deriving Repr, DecidableEq

/-- Settlement of the promise returned by `generateProblemReport`. -/
inductive Settled where
  | resolved (report : ProblemReport)
  | rejected (e : String)
deriving Repr, DecidableEq

/-- Settlement effect of a single worker event under the registered handlers: a message
resolves on success with data and rejects otherwise, an error event rejects, and an exit
event rejects exactly when the code is non-zero. -/
def settleOnEvent : WorkerEvent → Option Settled
  | WorkerEvent.message output =>
    match output.success, output.data with
    | true, some r => some (Settled.resolved r)
    | _, _ => some (Settled.rejected (output.error.getD "Unknown worker error"))
  | WorkerEvent.errored e => some (Settled.rejected e)
  | WorkerEvent.exited code =>
    if code ≠ 0 then some (Settled.rejected ("Worker exited with code " ++ toString code))
    else none

/-- Settlement of `generateProblemReport` over a worker event trace: the first settling
event wins; with no settling event the promise never settles, since the source registers
no timer. -/
def generateProblemReportSettle : List WorkerEvent → Option Settled
  | [] => none
  | ev :: rest =>
    match settleOnEvent ev with
    | some s => some s
    | none => generateProblemReportSettle rest

/-! ## Part 4: auxiliary definitions used by the theorems -/

/-- Package lists passed to the package-manager action, extracted from an event log in
order. -/
def installsOf (evs : List Event) : List (List String) :=
  evs.filterMap (fun e =>
    match e with
    | Event.installDeps ps => some ps
    | _ => none)

/-- State carried by an aborting or successful step result. -/
def stOfExc (r : Except (String × St) St) : St :=
  match r with
  | Except.ok st => st
  | Except.error (_, st) => st

/-- State carried by the commit-phase result. -/
def stOfCommit (r : Except (String × St) (St × Bool × Option (List String) × Option String)) :
    St :=
  match r with
  | Except.ok (st, _, _, _) => st
  | Except.error (_, st) => st

/-- Environment with every collaborator succeeding and nothing special configured; the
concrete instantiations below adjust single fields. -/
def envBase : Env :=
  { appFound := true, neonConfigured := false, neonSnapshot := Except.ok (),
    messageFound := true, supabaseConfigured := false, enableWriteSqlMigration := false,
    sqlExec := fun _ => Except.ok (), writeMigration := fun _ _ => Except.ok "m.sql",
    install := fun _ => Except.ok (), supaDelete := fun _ => Except.ok (),
    supaDeploy := fun _ _ => Except.ok (),
    uploads := fun _ => none, readUpload := fun _ => Except.error "no uploads",
    applySR := fun _ _ => none, gitAdd := fun _ => Except.ok (),
    gitCommitPrimary := Except.ok "commit0", uncommitted := [],
    gitAmend := Except.ok "commit1" }

/-- Environment whose database-branch snapshot fails. -/
def envNeonFail : Env :=
  { envBase with neonConfigured := true, neonSnapshot := Except.error "boom" }

/-- Environment with out-of-band uncommitted files and a failing amend commit. -/
def envAmendFail : Env :=
  { envBase with uncommitted := ["extra.txt"], gitAmend := Except.error "amend failed" }

/-- The end-to-end response of the write-wins scenario from the spec. -/
def respWriteWins : String :=
  "<dyad-delete path=\"old.ts\"></dyad-delete><dyad-rename from=\"b.ts\" to=\"old.ts\"></dyad-rename><dyad-write path=\"old.ts\">export const x = 1;</dyad-write>"

/-- The end-to-end two-tag dependency response from the spec. -/
def respTwoDeps : String :=
  "<dyad-add-dependency packages=\"left right\"></dyad-add-dependency><dyad-add-dependency packages=\"right extra\"></dyad-add-dependency>"

/-- Starting file tree of the end-to-end write-wins scenario. -/
def fsWriteWins : Fs :=
  [(safeJoin "app" "old.ts", FsEntry.file "OLD"), (safeJoin "app" "b.ts", FsEntry.file "B")]

/-- Events that stage files, commit, inspect the working tree for a commit, or persist a
commit id: exactly the version-control and commit-id side effects of one invocation. -/
def isCommitGitEvent : Event → Bool
  | Event.gitAdd _ => true
  | Event.gitRemove _ => true
  | Event.gitAddAll => true
  | Event.gitCommit _ _ => true
  | Event.gitListUncommitted => true
  | Event.dbSetCommitHash _ => true
  | _ => false

/-- Git-staging, commit and commit-id events of an event log, in order. -/
def commitGitEvents (evs : List Event) : List Event :=
  evs.filter isCommitGitEvent

/-- Response whose delete and rename tags name files that do not exist, so the invocation
changes no file: the central no-change case of the commit guard. -/
def respGhost : String :=
  "<dyad-delete path=\"ghost.ts\"></dyad-delete><dyad-rename from=\"nope.ts\" to=\"x.ts\"></dyad-rename>"

/-! ## Part 5: supporting lemmas and the claim theorems -/

set_option maxHeartbeats 1000000


/-! Support lemmas batch 1, take 2 -/

theorem strData_append (a b : String) : (a ++ b).data = a.data ++ b.data := rfl

theorem strData_ne_nil (v : String) (h : v ≠ "") : v.data ≠ [] := by
  intro hd
  apply h
  cases v
  simp at hd
  simp [hd]

theorem strLength_append (a b : String) : (a ++ b).length = a.length + b.length := by
  cases a with
  | mk la =>
    cases b with
    | mk lb =>
      show (la ++ lb).length = la.length + lb.length
      exact List.length_append la lb

theorem appendedContent_length_pos (ws es : List Output) :
    0 < (appendedContent ws es).length := by
  unfold appendedContent
  rw [strLength_append]
  have h5 : ("\n    " : String).length = 5 := rfl
  omega

theorem finallyFlush_events (fullResponse : String) (r : Outcome × St) :
    finallyFlush fullResponse r =
      (r.1, emit (Event.dbSetContent
        (fullResponse ++ "\n\n" ++ appendedContent r.2.warnings r.2.errors)) r.2) := by
  simp only [finallyFlush]
  rw [if_pos (appendedContent_length_pos r.2.warnings r.2.errors)]

-- fs lemmas
theorem fsLookup_filterNe_self (fs : Fs) (p : String) :
    fsLookup (fs.filter (fun e => !(e.1 == p))) p = none := by
  induction fs with
  | nil => rfl
  | cons kv fs ih =>
    by_cases hk : kv.1 = p
    · rw [List.filter_cons_of_neg (by simp [hk])]
      exact ih
    · rw [List.filter_cons_of_pos (by simp [hk])]
      unfold fsLookup
      rw [List.find?_cons_of_neg _ (by simp [hk])]
      exact ih

theorem fsLookup_filterNe_ne (fs : Fs) (p q : String) (h : q ≠ p) :
    fsLookup (fs.filter (fun e => !(e.1 == p))) q = fsLookup fs q := by
  induction fs with
  | nil => rfl
  | cons kv fs ih =>
    by_cases hk : kv.1 = p
    · rw [List.filter_cons_of_neg (by simp [hk])]
      rw [ih]
      unfold fsLookup
      rw [List.find?_cons_of_neg _ (by simp [hk]; exact fun hh => h hh.symm)]
    · by_cases hq : kv.1 = q
      · rw [List.filter_cons_of_pos (by simp [hk])]
        unfold fsLookup
        rw [List.find?_cons_of_pos _ (by simp [hq]), List.find?_cons_of_pos _ (by simp [hq])]
      · rw [List.filter_cons_of_pos (by simp [hk])]
        unfold fsLookup
        rw [List.find?_cons_of_neg _ (by simp [hq]), List.find?_cons_of_neg _ (by simp [hq])]
        exact ih

theorem fsLookup_append_single_self (fs : Fs) (p : String) (e : FsEntry)
    (hfs : fsLookup fs p = none) : fsLookup (fs ++ [(p, e)]) p = some e := by
  induction fs with
  | nil =>
    unfold fsLookup
    rw [List.nil_append, List.find?_cons_of_pos _ (by simp)]
    rfl
  | cons kv fs ih =>
    unfold fsLookup at hfs ⊢
    by_cases hk : kv.1 = p
    · rw [List.find?_cons_of_pos _ (by simp [hk])] at hfs
      simp at hfs
    · rw [List.find?_cons_of_neg _ (by simp [hk])] at hfs
      rw [List.cons_append, List.find?_cons_of_neg _ (by simp [hk])]
      exact ih hfs

theorem fsLookup_append_single_ne (fs : Fs) (p q : String) (e : FsEntry) (h : q ≠ p) :
    fsLookup (fs ++ [(p, e)]) q = fsLookup fs q := by
  induction fs with
  | nil =>
    unfold fsLookup
    rw [List.nil_append, List.find?_cons_of_neg _ (by simp; exact fun hh => h hh.symm)]
  | cons kv fs ih =>
    unfold fsLookup at ih ⊢
    by_cases hk : kv.1 = q
    · rw [List.cons_append, List.find?_cons_of_pos _ (by simp [hk]),
        List.find?_cons_of_pos _ (by simp [hk])]
    · rw [List.cons_append, List.find?_cons_of_neg _ (by simp [hk]),
        List.find?_cons_of_neg _ (by simp [hk])]
      exact ih

theorem fsLookup_fsSetFile_self (fs : Fs) (p c : String) :
    fsLookup (fsSetFile fs p c) p = some (FsEntry.file c) := by
  unfold fsSetFile
  exact fsLookup_append_single_self _ _ _ (fsLookup_filterNe_self fs p)

theorem fsLookup_fsSetFile_ne (fs : Fs) (p q c : String) (h : q ≠ p) :
    fsLookup (fsSetFile fs p c) q = fsLookup fs q := by
  unfold fsSetFile
  rw [fsLookup_append_single_ne _ _ _ _ h, fsLookup_filterNe_ne _ _ _ h]

theorem fsLookup_fsDeleteFile_ne (fs : Fs) (p q : String) (h : q ≠ p) :
    fsLookup (fsDeleteFile fs p) q = fsLookup fs q := by
  unfold fsDeleteFile
  exact fsLookup_filterNe_ne _ _ _ h

theorem fsLookup_filter2_left (fs : Fs) (a b : String) :
    fsLookup (fs.filter (fun e => !(e.1 == a) && !(e.1 == b))) a = none := by
  induction fs with
  | nil => rfl
  | cons kv fs ih =>
    by_cases hk : kv.1 = a
    · rw [List.filter_cons_of_neg (by simp [hk])]
      exact ih
    · by_cases hb : kv.1 = b
      · rw [List.filter_cons_of_neg (by simp [hb])]
        exact ih
      · rw [List.filter_cons_of_pos (by simp [hk, hb])]
        unfold fsLookup
        rw [List.find?_cons_of_neg _ (by simp [hk])]
        exact ih

theorem fsLookup_filter2_right (fs : Fs) (a b : String) :
    fsLookup (fs.filter (fun e => !(e.1 == a) && !(e.1 == b))) b = none := by
  induction fs with
  | nil => rfl
  | cons kv fs ih =>
    by_cases hk : kv.1 = a
    · rw [List.filter_cons_of_neg (by simp [hk])]
      exact ih
    · by_cases hb : kv.1 = b
      · rw [List.filter_cons_of_neg (by simp [hb])]
        exact ih
      · rw [List.filter_cons_of_pos (by simp [hk, hb])]
        unfold fsLookup
        rw [List.find?_cons_of_neg _ (by simp [hb])]
        exact ih

theorem fsLookup_fsRename_src (fs : Fs) (src dst : String) (h : src ≠ dst) :
    fsLookup (fsRename fs src dst) src = none := by
  unfold fsRename
  cases hs : fsLookup fs src with
  | none => exact hs
  | some entry =>
    rw [fsLookup_append_single_ne _ _ _ _ h]
    exact fsLookup_filter2_left fs src dst

theorem fsLookup_fsRename_dst (fs : Fs) (src dst : String) (entry : FsEntry)
    (hs : fsLookup fs src = some entry) :
    fsLookup (fsRename fs src dst) dst = some entry := by
  unfold fsRename
  rw [hs]
  exact fsLookup_append_single_self _ _ _ (fsLookup_filter2_right fs src dst)

-- safeJoin injectivity
theorem safeJoin_ne (base x y : String) (h : x ≠ y) : safeJoin base x ≠ safeJoin base y := by
  intro he
  apply h
  unfold safeJoin at he
  have hd := congrArg String.data he
  rw [strData_append, strData_append, strData_append, strData_append] at hd
  have h2 := List.append_cancel_left hd
  cases x
  cases y
  exact congrArg String.mk (by simpa using h2)

-- claim C10 draft
/-- C10: in every invocation that reaches the guaranteed-cleanup step, the annotation
block built from the warning and error collectors is non-empty even when both are empty
(it is literal template whitespace), so the stored message content is unconditionally
overwritten with the full response plus the appended block: the final recorded event of
any such run is that content update. -/
theorem flushAlways (env : Env) (appPath resp : String) (cs : Option String) (fs0 : Fs)
    (hApp : env.appFound = true)
    (hNeon : env.neonConfigured = true → env.neonSnapshot = Except.ok ()) :
    appendedContent [] [] = "\n    \n    \n    " ∧
    ((processFullResponseActions env appPath resp cs fs0).2.events).getLast? =
      some (Event.dbSetContent (resp ++ "\n\n" ++
        appendedContent (processFullResponseActions env appPath resp cs fs0).2.warnings
          (processFullResponseActions env appPath resp cs fs0).2.errors)) := by
  constructor
  · rfl
  · unfold processFullResponseActions
    simp only [hApp]
    by_cases hn : env.neonConfigured = true
    · simp only [hn, hNeon hn]
      rw [finallyFlush_events]
      simp [emit]
    · simp only [Bool.not_eq_true] at hn
      simp only [hn]
      rw [finallyFlush_events]
      simp [emit]

/-! Batch 2: C2, C3, C6, C8 -/

-- C2 amended theorem
/-- C2 (amended): when the pre-step database-branch snapshot fails, none of the
subsequent action steps execute, but the failure propagates out of
`processFullResponseActions` as a thrown error (a rejected promise) instead of being
returned as an error value, and no warnings or errors are flushed to the message
content: the throw happens before the try/finally block is entered, so the run ends in
the initial state with an empty event log. -/
theorem neonFail_propagates (env : Env) (appPath resp : String) (cs : Option String)
    (fs0 : Fs) (e : String)
    (hApp : env.appFound = true) (hNeon : env.neonConfigured = true)
    (hSnap : env.neonSnapshot = Except.error e) :
    processFullResponseActions env appPath resp cs fs0 =
      (Outcome.thrown
        ("Could not create Neon branch; database versioning functionality is not working: " ++ e),
       initSt fs0) := by
  unfold processFullResponseActions
  simp [hApp, hNeon, hSnap]

-- C2 counterexample (closed)
/-- C2 (counterexample): a concrete invocation whose snapshot fails ends as a thrown
error with an empty event log, refuting the claim that the function returns a single
error value and flushes the accumulated warnings and errors to the message content. -/
theorem neonFail_cex :
    processFullResponseActions envNeonFail "app" "resp" none [] =
      (Outcome.thrown
        ("Could not create Neon branch; database versioning functionality is not working: boom"),
       initSt []) ∧
    (processFullResponseActions envNeonFail "app" "resp" none []).2.events = [] := by
  constructor
  · rfl
  · rfl

-- C3
/-- C3: the promise returned by `generateProblemReport` settles only through the
worker-message, worker-error and non-zero-exit handlers; no timer is registered, so a
worker that never produces any of those events leaves the call pending forever.  The
empty worker-event trace produces no settlement. -/
theorem tscHang : generateProblemReportSettle [] = none := rfl

-- C6
/-- C6: a search-replace action whose target file is missing, or whose patch
application fails, leaves the orchestrator state completely unchanged: the target file
keeps its content, nothing is appended to the user-visible warning and error
collectors, and the loop simply continues with the remaining actions. -/
theorem srSilent (env : Env) (appPath : String) (tag : PathTag) (rest : List PathTag) (st : St)
    (h : fsLookup st.fs (safeJoin appPath tag.path) = none ∨
      ∃ original, fsLookup st.fs (safeJoin appPath tag.path) = some (FsEntry.file original) ∧
        env.applySR original tag.content = none) :
    srStep env appPath st tag = st ∧
    List.foldl (srStep env appPath) st (tag :: rest) = List.foldl (srStep env appPath) st rest := by
  have hstep : srStep env appPath st tag = st := by
    simp only [srStep]
    rcases h with hmiss | ⟨original, hfile, happ⟩
    · rw [hmiss]
    · rw [hfile]
      simp only [happ]
  exact ⟨hstep, by rw [List.foldl_cons, hstep]⟩

/-! Commit-event accounting: which events stage, commit, or persist a commit id. -/

theorem commitGitEvents_append (a b : List Event) :
    commitGitEvents (a ++ b) = commitGitEvents a ++ commitGitEvents b := by
  unfold commitGitEvents
  exact List.filter_append a b

theorem commitGitEvents_sqlStep (env : Env) (appPath : String) (st : St) (q : SqlQuery) :
    commitGitEvents (sqlStep env appPath st q).events = commitGitEvents st.events := by
  unfold sqlStep
  cases h1 : env.sqlExec q.content with
  | error e => simp [commitGitEvents, emit, pushError, List.filter_append, isCommitGitEvent]
  | ok _ =>
    by_cases h2 : env.enableWriteSqlMigration = true
    · simp only [h2, if_true]
      cases h3 : env.writeMigration q.content q.description with
      | ok mp => simp [commitGitEvents, emit, List.filter_append, isCommitGitEvent]
      | error e => simp [commitGitEvents, emit, pushError, List.filter_append, isCommitGitEvent]
    · simp only [Bool.not_eq_true] at h2
      simp [h2, commitGitEvents, emit, List.filter_append, isCommitGitEvent]

theorem commitGitEvents_sqlFold (env : Env) (appPath : String) :
    ∀ (qs : List SqlQuery) (st : St),
      commitGitEvents (qs.foldl (sqlStep env appPath) st).events = commitGitEvents st.events := by
  intro qs
  induction qs with
  | nil => intro st; rfl
  | cons q qs ih =>
    intro st
    rw [List.foldl_cons, ih, commitGitEvents_sqlStep]

theorem commitGitEvents_renameRemoteTeardown (env : Env) (tag : RenameTag) (st : St) :
    commitGitEvents (renameRemoteTeardown env tag st).events = commitGitEvents st.events := by
  unfold renameRemoteTeardown
  dsimp only
  split
  · split <;> simp [commitGitEvents, emit, pushWarning, List.filter_append, isCommitGitEvent]
  · rfl

theorem commitGitEvents_renameRemoteDeploy (env : Env) (appPath : String) (tag : RenameTag)
    (st : St) :
    commitGitEvents (renameRemoteDeploy env appPath tag st).events =
      commitGitEvents st.events := by
  unfold renameRemoteDeploy
  dsimp only
  split
  · split
    · simp [commitGitEvents, pushError, List.filter_append, isCommitGitEvent]
    · split <;> simp [commitGitEvents, emit, pushError, List.filter_append, isCommitGitEvent]
  · rfl

theorem commitGitEvents_srStep (env : Env) (appPath : String) (st : St) (tag : PathTag) :
    commitGitEvents (srStep env appPath st tag).events = commitGitEvents st.events := by
  unfold srStep
  dsimp only
  cases h1 : fsLookup st.fs (safeJoin appPath tag.path) with
  | none => rfl
  | some entry =>
    cases entry with
    | dir => rfl
    | file original =>
      dsimp only
      cases h2 : env.applySR original tag.content with
      | none => rfl
      | some newContent =>
        dsimp only
        split
        · split <;> simp [commitGitEvents, emit, pushError, List.filter_append, isCommitGitEvent]
        · simp [commitGitEvents, emit, List.filter_append, isCommitGitEvent]

theorem commitGitEvents_srFold (env : Env) (appPath : String) :
    ∀ (ts : List PathTag) (st : St),
      commitGitEvents (ts.foldl (srStep env appPath) st).events = commitGitEvents st.events := by
  intro ts
  induction ts with
  | nil => intro st; rfl
  | cons t ts ih =>
    intro st
    rw [List.foldl_cons, ih, commitGitEvents_srStep]

theorem commitGitEvents_writeStep (env : Env) (appPath : String) (st : St) (tag : PathTag) :
    commitGitEvents (writeStep env appPath st tag).events = commitGitEvents st.events := by
  unfold writeStep
  dsimp only
  cases h1 : env.uploads tag.content.trim with
  | none =>
    simp only [h1]
    split
    · split <;> simp [commitGitEvents, emit, pushError, List.filter_append, isCommitGitEvent]
    · simp [commitGitEvents, emit, List.filter_append, isCommitGitEvent]
  | some uploadPath =>
    simp only [h1]
    cases h2 : env.readUpload uploadPath with
    | ok fileContent =>
      simp only [h2]
      split
      · split <;> simp [commitGitEvents, emit, pushError, List.filter_append, isCommitGitEvent]
      · simp [commitGitEvents, emit, List.filter_append, isCommitGitEvent]
    | error e =>
      simp only [h2]
      split
      · split <;> simp [commitGitEvents, emit, pushError, List.filter_append, isCommitGitEvent]
      · simp [commitGitEvents, emit, pushError, List.filter_append, isCommitGitEvent]

theorem commitGitEvents_writeFold (env : Env) (appPath : String) :
    ∀ (ts : List PathTag) (st : St),
      commitGitEvents (ts.foldl (writeStep env appPath) st).events =
        commitGitEvents st.events := by
  intro ts
  induction ts with
  | nil => intro st; rfl
  | cons t ts ih =>
    intro st
    rw [List.foldl_cons, ih, commitGitEvents_writeStep]

/-! Frame facts: which file accumulators each phase can extend. -/

theorem sqlStep_frame (env : Env) (appPath : String) (st : St) (q : SqlQuery) :
    (sqlStep env appPath st q).renamedFiles = st.renamedFiles ∧
    (sqlStep env appPath st q).deletedFiles = st.deletedFiles := by
  unfold sqlStep
  cases h1 : env.sqlExec q.content with
  | error e => simp [emit, pushError]
  | ok _ =>
    by_cases h2 : env.enableWriteSqlMigration = true
    · simp only [h2, if_true]
      cases h3 : env.writeMigration q.content q.description with
      | ok mp => simp [emit]
      | error e => simp [emit, pushError]
    · simp only [Bool.not_eq_true] at h2
      simp [h2, emit]

theorem sqlFold_frame (env : Env) (appPath : String) :
    ∀ (qs : List SqlQuery) (st : St),
      (qs.foldl (sqlStep env appPath) st).renamedFiles = st.renamedFiles ∧
      (qs.foldl (sqlStep env appPath) st).deletedFiles = st.deletedFiles := by
  intro qs
  induction qs with
  | nil => intro st; exact ⟨rfl, rfl⟩
  | cons q qs ih =>
    intro st
    rw [List.foldl_cons]
    exact ⟨((ih _).1).trans (sqlStep_frame env appPath st q).1,
           ((ih _).2).trans (sqlStep_frame env appPath st q).2⟩

theorem depsPhase_nil (env : Env) (appPath : String) (st : St) :
    depsPhase env appPath [] st = st := rfl

theorem deleteStep_frame (env : Env) (appPath : String) (st : St) (p : String) :
    (deleteStep env appPath st p).renamedFiles = st.renamedFiles ∧
    (deleteStep env appPath st p).writtenFiles = st.writtenFiles ∧
    ((deleteStep env appPath st p).deletedFiles = st.deletedFiles ∨
     (deleteStep env appPath st p).deletedFiles = st.deletedFiles ++ [p]) := by
  unfold deleteStep
  cases h1 : fsLookup st.fs (safeJoin appPath p) with
  | some entry =>
    cases entry <;>
      (simp only [h1]
       split
       · split <;> simp [emit, pushError]
       · simp [emit])
  | none =>
    simp only [h1]
    split
    · split <;> simp [emit, pushError]
    · simp

theorem deleteFold_frame (env : Env) (appPath : String) :
    ∀ (ps : List String) (st : St),
      (ps.foldl (deleteStep env appPath) st).renamedFiles = st.renamedFiles ∧
      (ps.foldl (deleteStep env appPath) st).writtenFiles = st.writtenFiles ∧
      ∃ t, (ps.foldl (deleteStep env appPath) st).deletedFiles = st.deletedFiles ++ t := by
  intro ps
  induction ps with
  | nil => intro st; exact ⟨rfl, rfl, [], by simp⟩
  | cons p ps ih =>
    intro st
    rw [List.foldl_cons]
    obtain ⟨hr, hw, hdel⟩ := deleteStep_frame env appPath st p
    obtain ⟨ihr, ihw, t2, iht⟩ := ih (deleteStep env appPath st p)
    refine ⟨ihr.trans hr, ihw.trans hw, ?_⟩
    rcases hdel with h | h
    · exact ⟨t2, by rw [iht, h]⟩
    · exact ⟨[p] ++ t2, by rw [iht, h, List.append_assoc]⟩

theorem renameRemoteTeardown_writtenFiles (env : Env) (tag : RenameTag) (st : St) :
    (renameRemoteTeardown env tag st).writtenFiles = st.writtenFiles := by
  unfold renameRemoteTeardown
  dsimp only
  split
  · split <;> simp [emit, pushWarning]
  · rfl

theorem renameRemoteTeardown_renamedFiles (env : Env) (tag : RenameTag) (st : St) :
    (renameRemoteTeardown env tag st).renamedFiles = st.renamedFiles := by
  unfold renameRemoteTeardown
  dsimp only
  split
  · split <;> simp [emit, pushWarning]
  · rfl

theorem renameRemoteTeardown_deletedFiles (env : Env) (tag : RenameTag) (st : St) :
    (renameRemoteTeardown env tag st).deletedFiles = st.deletedFiles := by
  unfold renameRemoteTeardown
  dsimp only
  split
  · split <;> simp [emit, pushWarning]
  · rfl

theorem renameRemoteDeploy_writtenFiles (env : Env) (appPath : String) (tag : RenameTag)
    (st : St) :
    (renameRemoteDeploy env appPath tag st).writtenFiles = st.writtenFiles := by
  unfold renameRemoteDeploy
  dsimp only
  split
  · split
    · simp [pushError]
    · split <;> simp [emit, pushError]
  · rfl

theorem renameRemoteDeploy_renamedFiles (env : Env) (appPath : String) (tag : RenameTag)
    (st : St) :
    (renameRemoteDeploy env appPath tag st).renamedFiles = st.renamedFiles := by
  unfold renameRemoteDeploy
  dsimp only
  split
  · split
    · simp [pushError]
    · split <;> simp [emit, pushError]
  · rfl

theorem renameRemoteDeploy_deletedFiles (env : Env) (appPath : String) (tag : RenameTag)
    (st : St) :
    (renameRemoteDeploy env appPath tag st).deletedFiles = st.deletedFiles := by
  unfold renameRemoteDeploy
  dsimp only
  split
  · split
    · simp [pushError]
    · split <;> simp [emit, pushError]
  · rfl

theorem renameStep_frame (env : Env) (appPath : String) (st : St) (tag : RenameTag) :
    (stOfExc (renameStep env appPath st tag)).writtenFiles = st.writtenFiles ∧
    (stOfExc (renameStep env appPath st tag)).deletedFiles = st.deletedFiles ∧
    ((stOfExc (renameStep env appPath st tag)).renamedFiles = st.renamedFiles ∨
     (stOfExc (renameStep env appPath st tag)).renamedFiles =
       st.renamedFiles ++ [tag.toPath]) := by
  unfold renameStep
  cases h1 : fsLookup st.fs (safeJoin appPath tag.fromPath) with
  | some entry =>
    simp only [h1]
    cases h2 : env.gitAdd tag.toPath with
    | error e => simp [stOfExc, emit]
    | ok _ =>
      simp [stOfExc, renameRemoteDeploy_writtenFiles, renameRemoteDeploy_deletedFiles,
        renameRemoteDeploy_renamedFiles, renameRemoteTeardown_writtenFiles,
        renameRemoteTeardown_deletedFiles, renameRemoteTeardown_renamedFiles, emit]
  | none =>
    simp [h1, stOfExc, renameRemoteDeploy_writtenFiles, renameRemoteDeploy_deletedFiles,
      renameRemoteDeploy_renamedFiles, renameRemoteTeardown_writtenFiles,
      renameRemoteTeardown_deletedFiles, renameRemoteTeardown_renamedFiles]

theorem renameFold_frame (env : Env) (appPath : String) :
    ∀ (ts : List RenameTag) (st : St),
      (stOfExc (renameFold env appPath ts st)).writtenFiles = st.writtenFiles ∧
      (stOfExc (renameFold env appPath ts st)).deletedFiles = st.deletedFiles ∧
      ∃ t, (stOfExc (renameFold env appPath ts st)).renamedFiles = st.renamedFiles ++ t := by
  intro ts
  induction ts with
  | nil =>
    intro st
    exact ⟨rfl, rfl, [], by show st.renamedFiles = st.renamedFiles ++ []; simp⟩
  | cons t ts ih =>
    intro st
    unfold renameFold
    cases hr : renameStep env appPath st t with
    | error e =>
      have hfr := renameStep_frame env appPath st t
      rw [hr] at hfr
      obtain ⟨hw, hd, hren⟩ := hfr
      refine ⟨hw, hd, ?_⟩
      rcases hren with h | h
      · exact ⟨[], by simp [h]⟩
      · exact ⟨[t.toPath], h⟩
    | ok st2 =>
      have hfr := renameStep_frame env appPath st t
      rw [hr] at hfr
      simp only [stOfExc] at hfr
      obtain ⟨hw, hd, hren⟩ := hfr
      obtain ⟨ihw, ihd, t2, iht⟩ := ih st2
      refine ⟨ihw.trans hw, ihd.trans hd, ?_⟩
      rcases hren with h | h
      · exact ⟨t2, by rw [iht, h]⟩
      · exact ⟨[t.toPath] ++ t2, by rw [iht, h, List.append_assoc]⟩

theorem srStep_frame (env : Env) (appPath : String) (st : St) (tag : PathTag) :
    (srStep env appPath st tag).renamedFiles = st.renamedFiles ∧
    (srStep env appPath st tag).deletedFiles = st.deletedFiles := by
  unfold srStep
  dsimp only
  cases h1 : fsLookup st.fs (safeJoin appPath tag.path) with
  | none => exact ⟨rfl, rfl⟩
  | some entry =>
    cases entry with
    | dir => exact ⟨rfl, rfl⟩
    | file original =>
      dsimp only
      cases h2 : env.applySR original tag.content with
      | none => exact ⟨rfl, rfl⟩
      | some newContent =>
        dsimp only
        split
        · split <;> simp [emit, pushError]
        · simp [emit]

theorem srFold_frame (env : Env) (appPath : String) :
    ∀ (ts : List PathTag) (st : St),
      (ts.foldl (srStep env appPath) st).renamedFiles = st.renamedFiles ∧
      (ts.foldl (srStep env appPath) st).deletedFiles = st.deletedFiles := by
  intro ts
  induction ts with
  | nil => intro st; exact ⟨rfl, rfl⟩
  | cons t ts ih =>
    intro st
    rw [List.foldl_cons]
    exact ⟨((ih _).1).trans (srStep_frame env appPath st t).1,
           ((ih _).2).trans (srStep_frame env appPath st t).2⟩

theorem writeStep_frame (env : Env) (appPath : String) (st : St) (tag : PathTag) :
    (writeStep env appPath st tag).renamedFiles = st.renamedFiles ∧
    (writeStep env appPath st tag).deletedFiles = st.deletedFiles := by
  unfold writeStep
  dsimp only
  cases h1 : env.uploads tag.content.trim with
  | none =>
    simp only [h1]
    split
    · split <;> simp [emit, pushError]
    · simp [emit]
  | some uploadPath =>
    simp only [h1]
    cases h2 : env.readUpload uploadPath with
    | ok fileContent =>
      simp only [h2]
      split
      · split <;> simp [emit, pushError]
      · simp [emit]
    | error e =>
      simp only [h2]
      split
      · split <;> simp [emit, pushError]
      · simp [emit, pushError]

theorem writeFold_frame (env : Env) (appPath : String) :
    ∀ (ts : List PathTag) (st : St),
      (ts.foldl (writeStep env appPath) st).renamedFiles = st.renamedFiles ∧
      (ts.foldl (writeStep env appPath) st).deletedFiles = st.deletedFiles := by
  intro ts
  induction ts with
  | nil => intro st; exact ⟨rfl, rfl⟩
  | cons t ts ih =>
    intro st
    rw [List.foldl_cons]
    exact ⟨((ih _).1).trans (writeStep_frame env appPath st t).1,
           ((ih _).2).trans (writeStep_frame env appPath st t).2⟩

theorem gitAddFold_frame (env : Env) :
    ∀ (files : List String) (st : St),
      (stOfExc (gitAddFold env files st)).writtenFiles = st.writtenFiles ∧
      (stOfExc (gitAddFold env files st)).renamedFiles = st.renamedFiles ∧
      (stOfExc (gitAddFold env files st)).deletedFiles = st.deletedFiles := by
  intro files
  induction files with
  | nil => intro st; exact ⟨rfl, rfl, rfl⟩
  | cons f files ih =>
    intro st
    unfold gitAddFold
    cases hg : env.gitAdd f with
    | error e => simp [stOfExc, emit]
    | ok _ =>
      obtain ⟨h1, h2, h3⟩ := ih (emit (Event.gitAdd f) st)
      exact ⟨h1, h2, h3⟩

theorem commitPhase_frame (env : Env) (cs : Option String) (deps : List String) (nsql : Nat)
    (st : St) :
    (stOfCommit (commitPhase env cs deps nsql st)).writtenFiles = st.writtenFiles ∧
    (stOfCommit (commitPhase env cs deps nsql st)).renamedFiles = st.renamedFiles ∧
    (stOfCommit (commitPhase env cs deps nsql st)).deletedFiles = st.deletedFiles := by
  unfold commitPhase
  dsimp only
  split
  · cases hg : gitAddFold env st.writtenFiles st with
    | error e =>
      have hfr := gitAddFold_frame env st.writtenFiles st
      rw [hg] at hfr
      obtain ⟨msg, st2⟩ := e
      simpa [stOfCommit, stOfExc] using hfr
    | ok st2 =>
      have hfold := gitAddFold_frame env st.writtenFiles st
      rw [hg] at hfold
      simp only [stOfExc] at hfold
      obtain ⟨f1, f2, f3⟩ := hfold
      dsimp only
      cases hc : env.gitCommitPrimary with
      | error e => simp [stOfCommit, emit, f1, f2, f3]
      | ok commitHash =>
        dsimp only
        split
        · cases ha : env.gitAmend with
          | ok amendedHash => simp [stOfCommit, emit, f1, f2, f3]
          | error e => simp [stOfCommit, emit, f1, f2, f3]
        · simp [stOfCommit, emit, f1, f2, f3]
  · exact ⟨rfl, rfl, rfl⟩

/-! Silent sweeps: a delete or rename loop whose accumulator stays empty performed no
file operation at all, hence recorded no git event; a silent rename loop cannot have
aborted either, since the only abort sits inside the performed-move branch. -/

theorem deleteStep_silent (env : Env) (appPath : String) (st : St) (p : String)
    (h0 : st.deletedFiles = [])
    (h1 : (deleteStep env appPath st p).deletedFiles = []) :
    commitGitEvents (deleteStep env appPath st p).events = commitGitEvents st.events := by
  unfold deleteStep at h1 ⊢
  cases hl : fsLookup st.fs (safeJoin appPath p) with
  | some entry =>
    exfalso
    simp only [hl] at h1
    cases entry <;>
      (dsimp only at h1
       split at h1
       · split at h1 <;> simp [emit, pushError, h0] at h1
       · simp [emit, h0] at h1)
  | none =>
    simp only [hl]
    split
    · split <;> simp [commitGitEvents, emit, pushError, List.filter_append, isCommitGitEvent]
    · rfl

theorem deleteFold_silent (env : Env) (appPath : String) :
    ∀ (ps : List String) (st : St),
      st.deletedFiles = [] →
      (ps.foldl (deleteStep env appPath) st).deletedFiles = [] →
      commitGitEvents (ps.foldl (deleteStep env appPath) st).events =
        commitGitEvents st.events := by
  intro ps
  induction ps with
  | nil => intro st h0 h1; rfl
  | cons p ps ih =>
    intro st h0 h1
    rw [List.foldl_cons] at h1 ⊢
    have hstep1 : (deleteStep env appPath st p).deletedFiles = [] := by
      obtain ⟨-, -, t2, ht2⟩ := deleteFold_frame env appPath ps (deleteStep env appPath st p)
      rw [ht2] at h1
      exact (List.append_eq_nil.mp h1).1
    rw [ih (deleteStep env appPath st p) hstep1 h1,
      deleteStep_silent env appPath st p h0 hstep1]

theorem renameStep_silent (env : Env) (appPath : String) (st : St) (tag : RenameTag)
    (h0 : st.renamedFiles = [])
    (h1 : (stOfExc (renameStep env appPath st tag)).renamedFiles = []) :
    renameStep env appPath st tag =
      Except.ok (renameRemoteDeploy env appPath tag (renameRemoteTeardown env tag st)) := by
  unfold renameStep at h1 ⊢
  cases hl : fsLookup st.fs (safeJoin appPath tag.fromPath) with
  | some entry =>
    exfalso
    simp only [hl] at h1
    cases hg : env.gitAdd tag.toPath with
    | error e =>
      simp only [hg] at h1
      simp [stOfExc, emit, h0] at h1
    | ok _ =>
      simp only [hg, stOfExc, renameRemoteDeploy_renamedFiles,
        renameRemoteTeardown_renamedFiles] at h1
      simp [emit, h0] at h1
  | none =>
    simp only [hl]

theorem renameFold_silent (env : Env) (appPath : String) :
    ∀ (ts : List RenameTag) (st : St),
      st.renamedFiles = [] →
      (stOfExc (renameFold env appPath ts st)).renamedFiles = [] →
      ∃ st2, renameFold env appPath ts st = Except.ok st2 ∧ st2.renamedFiles = [] ∧
        commitGitEvents st2.events = commitGitEvents st.events ∧
        st2.deletedFiles = st.deletedFiles ∧ st2.writtenFiles = st.writtenFiles := by
  intro ts
  induction ts with
  | nil => intro st h0 h1; exact ⟨st, rfl, h0, rfl, rfl, rfl⟩
  | cons t ts ih =>
    intro st h0 h1
    unfold renameFold at h1 ⊢
    cases hr : renameStep env appPath st t with
    | error e =>
      exfalso
      obtain ⟨msg, stE⟩ := e
      simp only [hr] at h1
      have hsil := renameStep_silent env appPath st t h0 (by rw [hr]; exact h1)
      rw [hr] at hsil
      exact absurd hsil (by simp)
    | ok st1 =>
      simp only [hr] at h1
      have hst1ren : st1.renamedFiles = [] := by
        obtain ⟨-, -, t2, ht2⟩ := renameFold_frame env appPath ts st1
        rw [ht2] at h1
        exact (List.append_eq_nil.mp h1).1
      have hsil := renameStep_silent env appPath st t h0 (by rw [hr]; exact hst1ren)
      rw [hr] at hsil
      have hst1 : st1 = renameRemoteDeploy env appPath t (renameRemoteTeardown env t st) :=
        Except.ok.inj hsil
      obtain ⟨st2, hfold, hren, hcge, hdel, hwr⟩ := ih st1 hst1ren h1
      refine ⟨st2, hfold, hren, ?_, ?_, ?_⟩
      · rw [hcge, hst1, commitGitEvents_renameRemoteDeploy, commitGitEvents_renameRemoteTeardown]
      · rw [hdel, hst1, renameRemoteDeploy_deletedFiles, renameRemoteTeardown_deletedFiles]
      · rw [hwr, hst1, renameRemoteDeploy_writtenFiles, renameRemoteTeardown_writtenFiles]

theorem commitPhase_noChanges (env : Env) (cs : Option String) (nsql : Nat) (st : St)
    (hw : st.writtenFiles = []) (hr : st.renamedFiles = []) (hd : st.deletedFiles = []) :
    commitPhase env cs [] nsql st = Except.ok (st, false, none, none) := by
  unfold commitPhase
  simp [hw, hr, hd]

/-! The try-block body of a no-changes invocation records no commit-manager event. -/

theorem noChanges_tryBody (env : Env) (appPath resp : String) (cs : Option String) (st0 : St)
    (h0r : st0.renamedFiles = []) (h0d : st0.deletedFiles = [])
    (hDep : getDyadAddDependencyTags resp = [])
    (hw : (tryBody env appPath resp cs st0).2.writtenFiles = [])
    (hr : (tryBody env appPath resp cs st0).2.renamedFiles = [])
    (hd : (tryBody env appPath resp cs st0).2.deletedFiles = []) :
    commitGitEvents (tryBody env appPath resp cs st0).2.events =
      commitGitEvents st0.events := by
  unfold tryBody at hw hr hd ⊢
  cases hm : env.messageFound with
  | false => simp [hm]
  | true =>
    simp only [hm, hDep, Bool.not_true, Bool.false_eq_true, if_false, ite_false,
      depsPhase_nil] at hw hr hd ⊢
    set qs := (if env.supabaseConfigured = true then getDyadExecuteSqlTags resp else [])
      with hqs
    set st1 := qs.foldl (sqlStep env appPath) st0 with hst1
    have e1r : st1.renamedFiles = [] := by
      rw [hst1, (sqlFold_frame env appPath qs st0).1, h0r]
    have e1d : st1.deletedFiles = [] := by
      rw [hst1, (sqlFold_frame env appPath qs st0).2, h0d]
    have cge1 : commitGitEvents st1.events = commitGitEvents st0.events :=
      commitGitEvents_sqlFold env appPath qs st0
    set st3 := (getDyadDeleteTags resp).foldl (deleteStep env appPath) st1 with hst3
    have e3r : st3.renamedFiles = [] := by
      rw [hst3, (deleteFold_frame env appPath (getDyadDeleteTags resp) st1).1, e1r]
    cases hrf : renameFold env appPath (getDyadRenameTags resp) st3 with
    | error e =>
      exfalso
      obtain ⟨msg, stE⟩ := e
      simp only [hrf] at hr
      obtain ⟨st2b, hfold, -, -, -, -⟩ :=
        renameFold_silent env appPath (getDyadRenameTags resp) st3 e3r (by rw [hrf]; exact hr)
      rw [hrf] at hfold
      exact absurd hfold (by simp)
    | ok st4 =>
      simp only [hrf] at hw hr hd ⊢
      cases hcp : commitPhase env cs [] qs.length
          (((getDyadWriteTags resp).1).foldl (writeStep env appPath)
            (((getDyadSearchReplaceTags resp).1).foldl (srStep env appPath) st4)) with
      | error e =>
        exfalso
        obtain ⟨msg, stE⟩ := e
        simp only [hcp] at hw hr hd
        set st6 := ((getDyadWriteTags resp).1).foldl (writeStep env appPath)
          (((getDyadSearchReplaceTags resp).1).foldl (srStep env appPath) st4) with hst6
        have hframe := commitPhase_frame env cs [] qs.length st6
        rw [hcp] at hframe
        simp only [stOfCommit] at hframe
        have h6w : st6.writtenFiles = [] := by rw [← hframe.1]; exact hw
        have h6r : st6.renamedFiles = [] := by rw [← hframe.2.1]; exact hr
        have h6d : st6.deletedFiles = [] := by rw [← hframe.2.2]; exact hd
        have hnc := commitPhase_noChanges env cs qs.length st6 h6w h6r h6d
        rw [hcp] at hnc
        exact absurd hnc (by simp)
      | ok res =>
        obtain ⟨st7, flag, ef, ee⟩ := res
        simp only [hcp] at hw hr hd ⊢
        set st6 := ((getDyadWriteTags resp).1).foldl (writeStep env appPath)
          (((getDyadSearchReplaceTags resp).1).foldl (srStep env appPath) st4) with hst6
        have hframe := commitPhase_frame env cs [] qs.length st6
        rw [hcp] at hframe
        simp only [stOfCommit] at hframe
        have h6w : st6.writtenFiles = [] := by rw [← hframe.1]; exact hw
        have h6r : st6.renamedFiles = [] := by rw [← hframe.2.1]; exact hr
        have h6d : st6.deletedFiles = [] := by rw [← hframe.2.2]; exact hd
        have h5 := writeFold_frame env appPath ((getDyadWriteTags resp).1)
          (((getDyadSearchReplaceTags resp).1).foldl (srStep env appPath) st4)
        have h4 := srFold_frame env appPath ((getDyadSearchReplaceTags resp).1) st4
        have h4r : st4.renamedFiles = [] := by
          rw [← h4.1, ← h5.1, ← hst6]; exact h6r
        have h4d : st4.deletedFiles = [] := by
          rw [← h4.2, ← h5.2, ← hst6]; exact h6d
        have h3d : st3.deletedFiles = [] := by
          have hframe2 := renameFold_frame env appPath (getDyadRenameTags resp) st3
          rw [hrf] at hframe2
          simp only [stOfExc] at hframe2
          rw [← hframe2.2.1]; exact h4d
        have cge3 : commitGitEvents st3.events = commitGitEvents st1.events :=
          deleteFold_silent env appPath (getDyadDeleteTags resp) st1 e1d
            (by rw [← hst3]; exact h3d)
        obtain ⟨st4b, hfold, hren4, hcge4, hdel4, hwr4⟩ :=
          renameFold_silent env appPath (getDyadRenameTags resp) st3 e3r
            (by rw [hrf]; exact h4r)
        rw [hrf] at hfold
        have hst4b : st4 = st4b := Except.ok.inj hfold
        rw [← hst4b] at hcge4
        have hnc := commitPhase_noChanges env cs qs.length st6 h6w h6r h6d
        rw [hcp] at hnc
        have hst7 : st7 = st6 := congrArg Prod.fst (Except.ok.inj hnc)
        rw [hst7]
        show commitGitEvents (st6.events ++ [Event.dbSetApproved]) = commitGitEvents st0.events
        rw [commitGitEvents_append]
        have hap : commitGitEvents [Event.dbSetApproved] = [] := rfl
        rw [hap, List.append_nil, hst6, commitGitEvents_writeFold, commitGitEvents_srFold,
          hcge4, cge3, cge1]

/-! Full invocations: with the flush appended the same accounting holds end to end. -/

theorem noChanges_flushed (env : Env) (appPath resp : String) (cs : Option String) (fs0 : Fs)
    (hDep : getDyadAddDependencyTags resp = [])
    (hw : (finallyFlush resp (tryBody env appPath resp cs (initSt fs0))).2.writtenFiles = [])
    (hr : (finallyFlush resp (tryBody env appPath resp cs (initSt fs0))).2.renamedFiles = [])
    (hd : (finallyFlush resp (tryBody env appPath resp cs (initSt fs0))).2.deletedFiles = []) :
    commitGitEvents
      (finallyFlush resp (tryBody env appPath resp cs (initSt fs0))).2.events = [] := by
  rw [finallyFlush_events] at hw hr hd ⊢
  have hw2 : (tryBody env appPath resp cs (initSt fs0)).2.writtenFiles = [] := hw
  have hr2 : (tryBody env appPath resp cs (initSt fs0)).2.renamedFiles = [] := hr
  have hd2 : (tryBody env appPath resp cs (initSt fs0)).2.deletedFiles = [] := hd
  have hbody := noChanges_tryBody env appPath resp cs (initSt fs0) rfl rfl hDep hw2 hr2 hd2
  show commitGitEvents ((tryBody env appPath resp cs (initSt fs0)).2.events ++
    [Event.dbSetContent (resp ++ "\n\n" ++
      appendedContent (tryBody env appPath resp cs (initSt fs0)).2.warnings
        (tryBody env appPath resp cs (initSt fs0)).2.errors)]) = []
  rw [commitGitEvents_append, hbody]
  rfl

/-- C8: in every invocation in which no file was written, renamed or deleted and the
parsed dependency list is empty — including runs whose delete, rename or search-replace
tags were present but touched missing files or failed to apply — the recorded event log
contains no git staging, commit, working-tree inspection or commit-id persistence event
at all: the commit manager is never invoked and no commit id is recorded on the owning
message. -/
theorem noChangesNoCommit (env : Env) (appPath resp : String) (cs : Option String) (fs0 : Fs)
    (hDep : getDyadAddDependencyTags resp = [])
    (hw : (processFullResponseActions env appPath resp cs fs0).2.writtenFiles = [])
    (hr : (processFullResponseActions env appPath resp cs fs0).2.renamedFiles = [])
    (hd : (processFullResponseActions env appPath resp cs fs0).2.deletedFiles = []) :
    commitGitEvents (processFullResponseActions env appPath resp cs fs0).2.events = [] := by
  unfold processFullResponseActions at hw hr hd ⊢
  cases ha : env.appFound with
  | false => rfl
  | true =>
    cases hn : env.neonConfigured with
    | false =>
      simp only [ha, hn, Bool.not_true, Bool.false_eq_true, if_false, ite_false] at hw hr hd ⊢
      exact noChanges_flushed env appPath resp cs fs0 hDep hw hr hd
    | true =>
      simp only [ha, hn, Bool.not_true, Bool.false_eq_true, if_false, ite_false, if_true,
        ite_true] at hw hr hd ⊢
      cases hs : env.neonSnapshot with
      | error e => simp only [hs] at hw hr hd ⊢; rfl
      | ok u =>
        simp only [hs] at hw hr hd ⊢
        exact noChanges_flushed env appPath resp cs fs0 hDep hw hr hd

/-! Batch 3: install-invocation accounting and C5 -/

theorem installsOf_append (a b : List Event) :
    installsOf (a ++ b) = installsOf a ++ installsOf b := by
  unfold installsOf
  exact List.filterMap_append a b _

theorem installsOf_sqlStep (env : Env) (appPath : String) (st : St) (q : SqlQuery) :
    installsOf (sqlStep env appPath st q).events = installsOf st.events := by
  unfold sqlStep
  cases h1 : env.sqlExec q.content with
  | error e => simp [installsOf, emit, pushError, List.filterMap_append]
  | ok _ =>
    by_cases h2 : env.enableWriteSqlMigration = true
    · simp only [h2, if_true]
      cases h3 : env.writeMigration q.content q.description with
      | ok mp => simp [installsOf, emit, List.filterMap_append]
      | error e => simp [installsOf, emit, pushError, List.filterMap_append]
    · simp only [Bool.not_eq_true] at h2
      simp [h2, installsOf, emit, List.filterMap_append]

theorem installsOf_sqlFold (env : Env) (appPath : String) :
    ∀ (qs : List SqlQuery) (st : St),
      installsOf (qs.foldl (sqlStep env appPath) st).events = installsOf st.events := by
  intro qs
  induction qs with
  | nil => intro st; rfl
  | cons q qs ih =>
    intro st
    rw [List.foldl_cons, ih, installsOf_sqlStep]

theorem installsOf_depsPhase (env : Env) (appPath : String) (packages : List String) (st : St)
    (h : packages ≠ []) :
    installsOf (depsPhase env appPath packages st).events =
      installsOf st.events ++ [packages] := by
  unfold depsPhase
  simp only [List.isEmpty_eq_true, h, if_false]
  cases h1 : env.install packages with
  | ok _ =>
    simp only [h1]
    split <;> split <;> simp [installsOf, emit, List.filterMap_append]
  | error e =>
    simp only [h1]
    split <;> split <;> simp [installsOf, emit, pushError, List.filterMap_append]

theorem installsOf_deleteStep (env : Env) (appPath : String) (st : St) (p : String) :
    installsOf (deleteStep env appPath st p).events = installsOf st.events := by
  unfold deleteStep
  cases h1 : fsLookup st.fs (safeJoin appPath p) with
  | some entry =>
    cases entry <;>
      (simp only [h1]
       split
       · split <;> simp [installsOf, emit, pushError, List.filterMap_append]
       · simp [installsOf, emit, List.filterMap_append])
  | none =>
    simp only [h1]
    split
    · split <;> simp [installsOf, emit, pushError, List.filterMap_append]
    · rfl

theorem installsOf_deleteFold (env : Env) (appPath : String) :
    ∀ (ps : List String) (st : St),
      installsOf (ps.foldl (deleteStep env appPath) st).events = installsOf st.events := by
  intro ps
  induction ps with
  | nil => intro st; rfl
  | cons p ps ih =>
    intro st
    rw [List.foldl_cons, ih, installsOf_deleteStep]

theorem installsOf_renameRemoteTeardown (env : Env) (tag : RenameTag) (st : St) :
    installsOf (renameRemoteTeardown env tag st).events = installsOf st.events := by
  unfold renameRemoteTeardown
  dsimp only
  split
  · split <;> simp [installsOf, emit, pushWarning, List.filterMap_append]
  · rfl

theorem installsOf_renameRemoteDeploy (env : Env) (appPath : String) (tag : RenameTag)
    (st : St) :
    installsOf (renameRemoteDeploy env appPath tag st).events = installsOf st.events := by
  unfold renameRemoteDeploy
  dsimp only
  split
  · split
    · simp [installsOf, pushError, List.filterMap_append]
    · split <;> simp [installsOf, emit, pushError, List.filterMap_append]
  · rfl

theorem installsOf_renameStep (env : Env) (appPath : String) (st : St) (tag : RenameTag) :
    installsOf (stOfExc (renameStep env appPath st tag)).events = installsOf st.events := by
  unfold renameStep
  cases h1 : fsLookup st.fs (safeJoin appPath tag.fromPath) with
  | some entry =>
    simp only [h1]
    cases h2 : env.gitAdd tag.toPath with
    | error e => simp [stOfExc, installsOf, emit, List.filterMap_append]
    | ok _ =>
      simp only [stOfExc, installsOf_renameRemoteDeploy, installsOf_renameRemoteTeardown]
      simp [installsOf, emit, List.filterMap_append]
  | none =>
    simp only [h1, stOfExc, installsOf_renameRemoteDeploy, installsOf_renameRemoteTeardown]

theorem installsOf_renameFold (env : Env) (appPath : String) :
    ∀ (ts : List RenameTag) (st : St),
      installsOf (stOfExc (renameFold env appPath ts st)).events = installsOf st.events := by
  intro ts
  induction ts with
  | nil => intro st; rfl
  | cons t ts ih =>
    intro st
    unfold renameFold
    cases hr : renameStep env appPath st t with
    | error e =>
      have := installsOf_renameStep env appPath st t
      rw [hr] at this
      simpa [stOfExc] using this
    | ok st2 =>
      have := installsOf_renameStep env appPath st t
      rw [hr] at this
      simp only [stOfExc] at this
      rw [ih st2, this]

theorem installsOf_srStep (env : Env) (appPath : String) (st : St) (tag : PathTag) :
    installsOf (srStep env appPath st tag).events = installsOf st.events := by
  unfold srStep
  dsimp only
  cases h1 : fsLookup st.fs (safeJoin appPath tag.path) with
  | none => rfl
  | some entry =>
    cases entry with
    | dir => rfl
    | file original =>
      dsimp only
      cases h2 : env.applySR original tag.content with
      | none => rfl
      | some newContent =>
        dsimp only
        split
        · split <;> simp [installsOf, emit, pushError, List.filterMap_append]
        · simp [installsOf, emit, List.filterMap_append]

theorem installsOf_srFold (env : Env) (appPath : String) :
    ∀ (ts : List PathTag) (st : St),
      installsOf (ts.foldl (srStep env appPath) st).events = installsOf st.events := by
  intro ts
  induction ts with
  | nil => intro st; rfl
  | cons t ts ih =>
    intro st
    rw [List.foldl_cons, ih, installsOf_srStep]

theorem installsOf_writeStep (env : Env) (appPath : String) (st : St) (tag : PathTag) :
    installsOf (writeStep env appPath st tag).events = installsOf st.events := by
  unfold writeStep
  dsimp only
  cases h1 : env.uploads tag.content.trim with
  | none =>
    simp only [h1]
    split
    · split <;> simp [installsOf, emit, pushError, List.filterMap_append]
    · simp [installsOf, emit, List.filterMap_append]
  | some uploadPath =>
    simp only [h1]
    cases h2 : env.readUpload uploadPath with
    | ok fileContent =>
      simp only [h2]
      split
      · split <;> simp [installsOf, emit, pushError, List.filterMap_append]
      · simp [installsOf, emit, List.filterMap_append]
    | error e =>
      simp only [h2]
      split
      · split <;> simp [installsOf, emit, pushError, List.filterMap_append]
      · simp [installsOf, emit, pushError, List.filterMap_append]

theorem installsOf_writeFold (env : Env) (appPath : String) :
    ∀ (ts : List PathTag) (st : St),
      installsOf (ts.foldl (writeStep env appPath) st).events = installsOf st.events := by
  intro ts
  induction ts with
  | nil => intro st; rfl
  | cons t ts ih =>
    intro st
    rw [List.foldl_cons, ih, installsOf_writeStep]

theorem installsOf_gitAddFold (env : Env) :
    ∀ (files : List String) (st : St),
      installsOf (stOfExc (gitAddFold env files st)).events = installsOf st.events := by
  intro files
  induction files with
  | nil => intro st; rfl
  | cons f files ih =>
    intro st
    unfold gitAddFold
    cases hg : env.gitAdd f with
    | error e => simp [stOfExc, installsOf, emit, List.filterMap_append]
    | ok _ =>
      rw [ih]
      simp [installsOf, emit, List.filterMap_append]

theorem installsOf_commitPhase (env : Env) (cs : Option String) (deps : List String)
    (nsql : Nat) (st : St) :
    installsOf (stOfCommit (commitPhase env cs deps nsql st)).events =
      installsOf st.events := by
  unfold commitPhase
  dsimp only
  split
  · cases hg : gitAddFold env st.writtenFiles st with
    | error e =>
      have := installsOf_gitAddFold env st.writtenFiles st
      rw [hg] at this
      obtain ⟨msg, st2⟩ := e
      simpa [stOfCommit, stOfExc] using this
    | ok st2 =>
      have hfold := installsOf_gitAddFold env st.writtenFiles st
      rw [hg] at hfold
      simp only [stOfExc] at hfold
      unfold installsOf at hfold
      dsimp only
      cases hc : env.gitCommitPrimary with
      | error e => simp [stOfCommit, installsOf, emit, List.filterMap_append, hfold]
      | ok commitHash =>
        dsimp only
        split
        · cases ha : env.gitAmend with
          | ok amendedHash =>
            simp [stOfCommit, installsOf, emit, List.filterMap_append, hfold]
          | error e =>
            simp [stOfCommit, installsOf, emit, List.filterMap_append, hfold]
        · simp [stOfCommit, installsOf, emit, List.filterMap_append, hfold]
  · rfl

-- C5 main theorem
theorem installsOf_tryBody (env : Env) (appPath resp : String) (cs : Option String)
    (st0 : St) (pkgs : List String)
    (hMsg : env.messageFound = true)
    (hDep : getDyadAddDependencyTags resp = pkgs) (hne : pkgs ≠ []) :
    installsOf (tryBody env appPath resp cs st0).2.events =
      installsOf st0.events ++ [pkgs] := by
  unfold tryBody
  simp only [hMsg, hDep, Bool.not_true, Bool.false_eq_true, if_false, ite_false]
  set st1 := (if env.supabaseConfigured = true then getDyadExecuteSqlTags resp
    else []).foldl (sqlStep env appPath) st0 with hst1
  have h1 : installsOf st1.events = installsOf st0.events := installsOf_sqlFold env appPath _ st0
  set st2 := depsPhase env appPath pkgs st1 with hst2
  have h2 : installsOf st2.events = installsOf st0.events ++ [pkgs] := by
    rw [hst2, installsOf_depsPhase env appPath pkgs st1 hne, h1]
  set st3 := (getDyadDeleteTags resp).foldl (deleteStep env appPath) st2 with hst3
  have h3 : installsOf st3.events = installsOf st0.events ++ [pkgs] := by
    rw [hst3, installsOf_deleteFold, h2]
  cases hr : renameFold env appPath (getDyadRenameTags resp) st3 with
  | error e =>
    obtain ⟨msg, stE⟩ := e
    have h4 := installsOf_renameFold env appPath (getDyadRenameTags resp) st3
    rw [hr] at h4
    simp only [stOfExc] at h4
    simp only [hr]
    rw [h4, h3]
  | ok st4 =>
    have h4 := installsOf_renameFold env appPath (getDyadRenameTags resp) st3
    rw [hr] at h4
    simp only [stOfExc] at h4
    simp only [hr]
    set st5 := ((getDyadSearchReplaceTags resp).1).foldl (srStep env appPath) st4 with hst5
    have h5 : installsOf st5.events = installsOf st0.events ++ [pkgs] := by
      rw [hst5, installsOf_srFold, h4, h3]
    set st6 := ((getDyadWriteTags resp).1).foldl (writeStep env appPath) st5 with hst6
    have h6 : installsOf st6.events = installsOf st0.events ++ [pkgs] := by
      rw [hst6, installsOf_writeFold, h5]
    cases hcp : commitPhase env cs pkgs
        (if env.supabaseConfigured = true then getDyadExecuteSqlTags resp else []).length st6 with
    | error e =>
      obtain ⟨msg, stE⟩ := e
      have h7 := installsOf_commitPhase env cs pkgs
        (if env.supabaseConfigured = true then getDyadExecuteSqlTags resp else []).length st6
      rw [hcp] at h7
      simp only [stOfCommit] at h7
      simp only [hcp]
      rw [h7, h6]
    | ok res =>
      obtain ⟨st7, hcFlag, ef, ee⟩ := res
      have h7 := installsOf_commitPhase env cs pkgs
        (if env.supabaseConfigured = true then getDyadExecuteSqlTags resp else []).length st6
      rw [hcp] at h7
      simp only [stOfCommit] at h7
      simp only [hcp]
      rw [show installsOf (emit Event.dbSetApproved st7).events =
        installsOf st7.events ++ installsOf [Event.dbSetApproved] from by
          unfold emit; rw [installsOf_append]]
      rw [h7, h6]
      simp [installsOf]

/-- C5: the parsed package list of a response is the concatenation of each
add-dependency tag in tag order with duplicates kept (witnessed by the two-tag spec
scenario), and every invocation whose parsed package list is non-empty invokes the
package-manager install action exactly once, with exactly that full list. -/
theorem installOnce (env : Env) (appPath resp : String) (cs : Option String) (fs0 : Fs)
    (pkgs : List String)
    (hApp : env.appFound = true)
    (hNeon : env.neonConfigured = true → env.neonSnapshot = Except.ok ())
    (hMsg : env.messageFound = true)
    (hDep : getDyadAddDependencyTags resp = pkgs) (hne : pkgs ≠ []) :
    installsOf (processFullResponseActions env appPath resp cs fs0).2.events = [pkgs] ∧
    getDyadAddDependencyTags respTwoDeps = ["left", "right", "right", "extra"] := by
  constructor
  · have hflush : ∀ r : Outcome × St,
        installsOf (finallyFlush resp r).2.events = installsOf r.2.events := by
      intro r
      rw [finallyFlush_events]
      dsimp only
      unfold emit
      rw [installsOf_append]
      simp [installsOf]
    have hbody := installsOf_tryBody env appPath resp cs (initSt fs0) pkgs hMsg hDep hne
    unfold processFullResponseActions
    by_cases hn : env.neonConfigured = true
    · simp only [hApp, hn, hNeon hn, Bool.not_true, Bool.false_eq_true, if_false, ite_true]
      rw [hflush, hbody]
      simp [initSt, installsOf]
    · simp only [Bool.not_eq_true] at hn
      simp only [hApp, hn, Bool.not_true, Bool.false_eq_true, if_false]
      rw [hflush, hbody]
      simp [initSt, installsOf]
  · simp +decide [respTwoDeps, getDyadAddDependencyTags, scanAddDepTags, matchAddDepHere,
      isPrefixAt, charMatch, spanUntil, breakAtChar, splitCh]

/-! Batch 4: C4 and C7 -/

theorem spanUntil_notin_append (stop : Char) :
    ∀ (l r : List Char), stop ∉ l → spanUntil stop (l ++ stop :: r) = some (l, r) := by
  intro l
  induction l with
  | nil => intro r _; simp [spanUntil]
  | cons c cs ih =>
    intro r hn
    simp only [List.mem_cons, not_or] at hn
    simp only [List.cons_append, spanUntil]
    have hne : (c == stop) = false := by
      simp
      exact fun hc => hn.1 hc.symm
    simp [hne, ih r hn.2]

-- C4
/-- C4: a `dyad-write` or `dyad-search-replace` tag missing its required path
attribute contributes zero actions and exactly one warning, and extraction of all
subsequent tags in the same text still succeeds: for every continuation of the text,
the extracted tags are exactly those of the continuation and the warning list gains
exactly one entry.  The extractors are total functions, so they never throw. -/
theorem missingPathTag (rest : String) :
    (getDyadWriteTags ("<dyad-write foo=\"1\">x</dyad-write>" ++ rest)).1 =
      (getDyadWriteTags rest).1 ∧
    (getDyadWriteTags ("<dyad-write foo=\"1\">x</dyad-write>" ++ rest)).2 =
      " foo=\"1\"" :: (getDyadWriteTags rest).2 ∧
    (getDyadSearchReplaceTags ("<dyad-search-replace foo=\"1\">x</dyad-search-replace>" ++ rest)).1 =
      (getDyadSearchReplaceTags rest).1 ∧
    (getDyadSearchReplaceTags ("<dyad-search-replace foo=\"1\">x</dyad-search-replace>" ++ rest)).2 =
      " foo=\"1\"" :: (getDyadSearchReplaceTags rest).2 := by
  refine ⟨?_, ?_, ?_, ?_⟩ <;>
    simp +decide [getDyadWriteTags, getDyadSearchReplaceTags, strData_append, scanPathTags,
      matchTagHere, isPrefixAt, charMatch, spanUntil, splitAtSub, parseAttr]

-- C7 counterexample
/-- C7 (counterexample): the packages attribute is split on the single space
character, not on arbitrary whitespace: two names separated by a double space parse to
a three-element list containing an empty-string entry, refuting the claim that the
parsed list never contains empty strings. -/
theorem packagesSplit_cex :
    getDyadAddDependencyTags "<dyad-add-dependency packages=\"a  b\"></dyad-add-dependency>" =
      ["a", "", "b"] ∧
    "" ∈ getDyadAddDependencyTags
      "<dyad-add-dependency packages=\"a  b\"></dyad-add-dependency>" := by
  have h : getDyadAddDependencyTags
      "<dyad-add-dependency packages=\"a  b\"></dyad-add-dependency>" = ["a", "", "b"] := by
    simp +decide [getDyadAddDependencyTags, scanAddDepTags, matchAddDepHere,
      isPrefixAt, charMatch, spanUntil, breakAtChar, splitCh]
  exact ⟨h, by rw [h]; simp⟩

-- C7 amended
/-- C7 (amended): for every quote-free non-empty packages attribute value, the parsed
package list is exactly the JavaScript single-space split of the attribute text; names
separated by exactly one space parse to those names, while consecutive spaces produce
empty entries and other whitespace is not a separator. -/
theorem packagesSplit_amended (v : String) (hq : ('"' : Char) ∉ v.data) (hne : v ≠ "") :
    getDyadAddDependencyTags
      ("<dyad-add-dependency packages=\"" ++ v ++ "\"></dyad-add-dependency>") =
      (splitCh ' ' v.data).map String.mk := by
  have hd : v.data ≠ [] := strData_ne_nil v hne
  simp +decide [getDyadAddDependencyTags, strData_append, scanAddDepTags, matchAddDepHere,
    isPrefixAt, charMatch, hd, breakAtChar]
  rw [spanUntil_notin_append '"' v.data _ hq]
  dsimp only
  rw [if_neg hd]
  simp +decide [scanAddDepTags, breakAtChar, isPrefixAt, charMatch]

/-! Batch 5: C1 and C9 -/

theorem finallyFlush_fs (resp : String) (r : Outcome × St) :
    (finallyFlush resp r).2.fs = r.2.fs := by
  rw [finallyFlush_events]
  rfl

/-- C1: for a response whose extraction yields one delete of path A, one rename from B
to A and one write to A, with files at A and B beforehand, the orchestrator applies the
fixed order delete, rename, search-replace, write, so the final content at A is the
write action content (write wins) and B no longer exists.  The deployable-unit guard is
off for both paths and the git collaborators succeed. -/
theorem writeWins (env : Env) (appPath resp A B c sA sB h0 : String) (d : Option String)
    (cs : Option String) (fs0 : Fs) (ws ws2 : List String)
    (hApp : env.appFound = true) (hNeon : env.neonConfigured = false)
    (hMsg : env.messageFound = true) (hSup : env.supabaseConfigured = false)
    (hW : getDyadWriteTags resp = ([{ path := A, content := c, description := d }], ws))
    (hR : getDyadRenameTags resp = [{ fromPath := B, toPath := A }])
    (hD : getDyadDeleteTags resp = [A])
    (hSR : getDyadSearchReplaceTags resp = ([], ws2))
    (hDep : getDyadAddDependencyTags resp = [])
    (hAB : A ≠ B)
    (hFsA : fsLookup fs0 (safeJoin appPath A) = some (FsEntry.file sA))
    (hFsB : fsLookup fs0 (safeJoin appPath B) = some (FsEntry.file sB))
    (hSrvA : isServerFunction A = false) (hSrvB : isServerFunction B = false)
    (hUp : env.uploads c.trim = none)
    (hAdd : env.gitAdd A = Except.ok ())
    (hCommit : env.gitCommitPrimary = Except.ok h0)
    (hUnc : env.uncommitted = []) :
    fsLookup (processFullResponseActions env appPath resp cs fs0).2.fs
      (safeJoin appPath A) = some (FsEntry.file c) ∧
    fsLookup (processFullResponseActions env appPath resp cs fs0).2.fs
      (safeJoin appPath B) = none := by
  have hjne : safeJoin appPath A ≠ safeJoin appPath B := safeJoin_ne appPath A B hAB
  have hlookupB : fsLookup (fsDeleteFile fs0 (safeJoin appPath A)) (safeJoin appPath B) =
      some (FsEntry.file sB) := by
    rw [fsLookup_fsDeleteFile_ne _ _ _ (Ne.symm hjne)]
    exact hFsB
  have hfs : (processFullResponseActions env appPath resp cs fs0).2.fs =
      fsSetFile (fsRename (fsDeleteFile fs0 (safeJoin appPath A)) (safeJoin appPath B)
        (safeJoin appPath A)) (safeJoin appPath A) c := by
    unfold processFullResponseActions
    simp only [hApp, hNeon, Bool.not_true, Bool.false_eq_true, if_false, ite_false]
    rw [finallyFlush_fs]
    unfold tryBody
    simp only [hMsg, hW, hR, hD, hDep, hSR, hSup, Bool.not_true, Bool.false_eq_true, if_false,
      ite_false, List.foldl_cons, List.foldl_nil]
    unfold depsPhase
    simp only [List.isEmpty_nil, if_true, ite_true]
    unfold deleteStep
    simp only [initSt, hFsA, hSrvA, Bool.false_eq_true, if_false, ite_false, emit]
    unfold renameFold renameStep
    simp only [hlookupB, hAdd, emit]
    unfold renameRemoteTeardown renameRemoteDeploy
    simp only [hSrvB, hSrvA, Bool.false_eq_true, if_false, ite_false]
    unfold renameFold
    unfold writeStep
    simp only [hUp, hSrvA, Bool.false_eq_true, Bool.false_and, if_false, ite_false, emit]
    unfold commitPhase
    simp [gitAddFold, hAdd, hCommit, hUnc, emit]
  rw [hfs]
  constructor
  · exact fsLookup_fsSetFile_self _ _ _
  · rw [fsLookup_fsSetFile_ne _ _ _ _ (Ne.symm hjne)]
    exact fsLookup_fsRename_src _ _ _ (Ne.symm hjne)

/-- C9: when out-of-band uncommitted files are found after the primary commit and the
amend commit fails, the pipeline neither aborts nor reports a top-level error: the run
returns the regular result carrying the uncommitted file list and the amend error
string as advisory data, and the primary commit hash is still persisted to the owning
message. -/
theorem amendAdvisory (env : Env) (appPath resp A c h0 e : String) (d : Option String)
    (cs : Option String) (fs0 : Fs) (ws ws2 : List String) (u : List String)
    (hApp : env.appFound = true) (hNeon : env.neonConfigured = false)
    (hMsg : env.messageFound = true) (hSup : env.supabaseConfigured = false)
    (hW : getDyadWriteTags resp = ([{ path := A, content := c, description := d }], ws))
    (hR : getDyadRenameTags resp = [])
    (hD : getDyadDeleteTags resp = [])
    (hSR : getDyadSearchReplaceTags resp = ([], ws2))
    (hDep : getDyadAddDependencyTags resp = [])
    (hSrvA : isServerFunction A = false)
    (hUp : env.uploads c.trim = none)
    (hAdd : env.gitAdd A = Except.ok ())
    (hCommit : env.gitCommitPrimary = Except.ok h0)
    (hUnc : env.uncommitted = u) (hu : u ≠ [])
    (hAmend : env.gitAmend = Except.error e) :
    (processFullResponseActions env appPath resp cs fs0).1 =
      Outcome.ok true (some u) (some e) ∧
    Event.dbSetCommitHash h0 ∈ (processFullResponseActions env appPath resp cs fs0).2.events := by
  have hrun : processFullResponseActions env appPath resp cs fs0 =
      finallyFlush resp (tryBody env appPath resp cs (initSt fs0)) := by
    unfold processFullResponseActions
    simp only [hApp, hNeon, Bool.not_true, Bool.false_eq_true, if_false, ite_false]
  have hu0 : 0 < u.length := List.length_pos.mpr hu
  rw [hrun, finallyFlush_events]
  refine ⟨?_, ?_⟩ <;>
    (dsimp only [emit]
     unfold tryBody
     simp only [hMsg, hW, hR, hD, hDep, hSR, hSup, Bool.not_true, Bool.false_eq_true, if_false,
       ite_false, List.foldl_cons, List.foldl_nil]
     unfold depsPhase
     simp only [List.isEmpty_nil, if_true, ite_true]
     unfold renameFold
     unfold writeStep
     simp only [initSt, hUp, hSrvA, Bool.false_eq_true, Bool.false_and, if_false, ite_false, emit]
     unfold commitPhase
     simp [gitAddFold, hAdd, hCommit, hUnc, hu0, hAmend, emit, Nat.pos_iff_ne_zero,
       List.mem_append, List.mem_cons])

/-! Batch 6: witnesses -/

/-- Instantiation of the write-wins theorem on the end-to-end scenario of the spec. -/
theorem writeWins_witness :
    fsLookup (processFullResponseActions envBase "app" respWriteWins none fsWriteWins).2.fs
      (safeJoin "app" "old.ts") = some (FsEntry.file "export const x = 1;") ∧
    fsLookup (processFullResponseActions envBase "app" respWriteWins none fsWriteWins).2.fs
      (safeJoin "app" "b.ts") = none :=
  writeWins envBase "app" respWriteWins "old.ts" "b.ts" "export const x = 1;" "OLD" "B"
    "commit0" none none fsWriteWins [] []
    rfl rfl rfl rfl
    (by simp +decide [respWriteWins, getDyadWriteTags, scanPathTags, matchTagHere, isPrefixAt,
      charMatch, spanUntil, splitAtSub, parseAttr, normalizePath, cleanContent, trimChars,
      isWsChar, splitCh, joinCh, dropFenceFirst, dropFenceLast])
    (by simp +decide [respWriteWins, getDyadRenameTags, scanRenameTags, matchRenameHere,
      isPrefixAt, charMatch, spanUntil, splitAtSub, normalizePath])
    (by simp +decide [respWriteWins, getDyadDeleteTags, scanDeleteTags, matchDeleteHere,
      isPrefixAt, charMatch, spanUntil, splitAtSub, normalizePath])
    (by simp +decide [respWriteWins, getDyadSearchReplaceTags, scanPathTags, matchTagHere,
      isPrefixAt, charMatch, spanUntil, splitAtSub, parseAttr])
    (by simp +decide [respWriteWins, getDyadAddDependencyTags, scanAddDepTags, matchAddDepHere,
      isPrefixAt, charMatch, spanUntil, breakAtChar, splitCh])
    (by decide)
    (by simp +decide [fsWriteWins, fsLookup, safeJoin, List.find?])
    (by simp +decide [fsWriteWins, fsLookup, safeJoin, List.find?])
    (by decide) (by decide)
    rfl rfl rfl rfl

/-- Instantiation of the snapshot-failure theorem on a concrete failing environment. -/
theorem neonFail_witness :
    processFullResponseActions envNeonFail "app" "resp" none [] =
      (Outcome.thrown
        ("Could not create Neon branch; database versioning functionality is not working: boom"),
       initSt []) :=
  neonFail_propagates envNeonFail "app" "resp" none [] "boom" rfl rfl rfl

/-- Instantiation of the single-install theorem on the two-tag spec scenario. -/
theorem installOnce_witness :
    installsOf (processFullResponseActions envBase "app" respTwoDeps none []).2.events =
      [["left", "right", "right", "extra"]] ∧
    getDyadAddDependencyTags respTwoDeps = ["left", "right", "right", "extra"] :=
  installOnce envBase "app" respTwoDeps none [] ["left", "right", "right", "extra"]
    rfl (fun _ => rfl) rfl
    (by simp +decide [respTwoDeps, getDyadAddDependencyTags, scanAddDepTags, matchAddDepHere,
      isPrefixAt, charMatch, spanUntil, breakAtChar, splitCh])
    (by decide)

/-- Instantiation of the silent-continue theorem on a missing target file. -/
theorem srSilent_witness :
    srStep envBase "app" (initSt []) { path := "f.ts", content := "rules", description := none } =
      initSt [] ∧
    List.foldl (srStep envBase "app") (initSt [])
      [{ path := "f.ts", content := "rules", description := none }] =
      List.foldl (srStep envBase "app") (initSt []) [] :=
  srSilent envBase "app" { path := "f.ts", content := "rules", description := none } []
    (initSt []) (Or.inl rfl)

/-- Instantiation of the amended split theorem on a single-space attribute. -/
theorem packagesSplit_amended_witness :
    getDyadAddDependencyTags
      ("<dyad-add-dependency packages=\"" ++ "left right" ++ "\"></dyad-add-dependency>") =
      (splitCh ' ' "left right".data).map String.mk :=
  packagesSplit_amended "left right" (by decide) (by decide)

theorem ghostParseW : getDyadWriteTags respGhost = ([], []) := by
  simp +decide [respGhost, getDyadWriteTags, scanPathTags, matchTagHere, isPrefixAt,
    charMatch, spanUntil, splitAtSub, parseAttr, normalizePath, cleanContent, trimChars,
    isWsChar, splitCh, joinCh, dropFenceFirst, dropFenceLast]

theorem ghostParseR : getDyadRenameTags respGhost = [{ fromPath := "nope.ts", toPath := "x.ts" }] := by
  simp +decide [respGhost, getDyadRenameTags, scanRenameTags, matchRenameHere, isPrefixAt,
    charMatch, spanUntil, splitAtSub, normalizePath]

theorem ghostParseD : getDyadDeleteTags respGhost = ["ghost.ts"] := by
  simp +decide [respGhost, getDyadDeleteTags, scanDeleteTags, matchDeleteHere, isPrefixAt,
    charMatch, spanUntil, splitAtSub, normalizePath]

theorem ghostParseSR : getDyadSearchReplaceTags respGhost = ([], []) := by
  simp +decide [respGhost, getDyadSearchReplaceTags, scanPathTags, matchTagHere, isPrefixAt,
    charMatch, spanUntil, splitAtSub, parseAttr]

theorem ghostParseDep : getDyadAddDependencyTags respGhost = [] := by
  simp +decide [respGhost, getDyadAddDependencyTags, scanAddDepTags, matchAddDepHere,
    isPrefixAt, charMatch, spanUntil, breakAtChar, splitCh]

theorem ghostRun :
    processFullResponseActions envBase "app" respGhost none [] =
      (Outcome.ok false none none,
       { fs := [], writtenFiles := [], renamedFiles := [], deletedFiles := [],
         warnings := [], errors := [],
         events := [Event.dbSetApproved,
           Event.dbSetContent (respGhost ++ "\n\n" ++ appendedContent [] [])] }) := by
  unfold processFullResponseActions
  simp only [show envBase.appFound = true from rfl, show envBase.neonConfigured = false from rfl,
    Bool.not_true, Bool.false_eq_true, if_false, ite_false]
  rw [finallyFlush_events]
  unfold tryBody
  simp only [show envBase.messageFound = true from rfl,
    show envBase.supabaseConfigured = false from rfl,
    ghostParseW, ghostParseR, ghostParseD, ghostParseDep, ghostParseSR,
    Bool.not_true, Bool.false_eq_true, if_false, ite_false, List.foldl_nil, List.foldl_cons,
    depsPhase_nil]
  unfold deleteStep
  simp only [initSt]
  simp +decide [fsLookup, safeJoin, isServerFunction, isPrefixAt, charMatch]

/-- Instantiation of the no-changes theorem on a run whose delete and rename tags name
missing files: tags are present, nothing changes, and no commit-manager event is
recorded. -/
theorem noChangesNoCommit_witness :
    commitGitEvents (processFullResponseActions envBase "app" respGhost none []).2.events = [] :=
  noChangesNoCommit envBase "app" respGhost none [] ghostParseDep
    (by rw [ghostRun]) (by rw [ghostRun]) (by rw [ghostRun])

/-- Instantiation of the amend-failure theorem on a concrete failing amend. -/
theorem amendAdvisory_witness :
    (processFullResponseActions envAmendFail "app" "<dyad-write path=\"a.ts\">hi</dyad-write>"
      none []).1 = Outcome.ok true (some ["extra.txt"]) (some "amend failed") ∧
    Event.dbSetCommitHash "commit0" ∈
      (processFullResponseActions envAmendFail "app" "<dyad-write path=\"a.ts\">hi</dyad-write>"
        none []).2.events :=
  amendAdvisory envAmendFail "app" "<dyad-write path=\"a.ts\">hi</dyad-write>" "a.ts" "hi"
    "commit0" "amend failed" none none [] [] [] ["extra.txt"]
    rfl rfl rfl rfl
    (by simp +decide [getDyadWriteTags, scanPathTags, matchTagHere, isPrefixAt, charMatch,
      spanUntil, splitAtSub, parseAttr, normalizePath, cleanContent, trimChars, isWsChar,
      splitCh, joinCh, dropFenceFirst, dropFenceLast])
    (by simp +decide [getDyadRenameTags, scanRenameTags, matchRenameHere, isPrefixAt, charMatch,
      spanUntil, splitAtSub])
    (by simp +decide [getDyadDeleteTags, scanDeleteTags, matchDeleteHere, isPrefixAt, charMatch,
      spanUntil, splitAtSub])
    (by simp +decide [getDyadSearchReplaceTags, scanPathTags, matchTagHere, isPrefixAt, charMatch,
      spanUntil, splitAtSub, parseAttr])
    (by simp +decide [getDyadAddDependencyTags, scanAddDepTags, matchAddDepHere, isPrefixAt,
      charMatch, spanUntil, breakAtChar, splitCh])
    (by decide)
    rfl rfl rfl rfl (by decide) rfl

/-- Instantiation of the unconditional-flush theorem on a plain response. -/
theorem flushAlways_witness :
    appendedContent [] [] = "\n    \n    \n    " ∧
    ((processFullResponseActions envBase "app" "hello" none []).2.events).getLast? =
      some (Event.dbSetContent ("hello" ++ "\n\n" ++
        appendedContent (processFullResponseActions envBase "app" "hello" none []).2.warnings
          (processFullResponseActions envBase "app" "hello" none []).2.errors)) :=
  flushAlways envBase "app" "hello" none [] rfl (fun _ => rfl)
